import Mathlib

/-!
Verification of the transactional storage kernel of willow-db (Rust) against
its natural-language specification.  The Rust sources are shallowly embedded:

* machine integers are modelled as `Nat`/`Int` with explicit two's-complement
  conversions where the code casts (`usize as i32`, `i32 as usize`);
* a `Page` (`Box<[u8]>` in `src/file.rs`) is modelled as a total function
  `Nat → Nat` from byte offsets to byte values; every page access performed by
  the code paths modelled here is in bounds, so the out-of-bounds panic of the
  Rust slice indexing is never exercised;
* Rust `HashMap`s are association lists, the `BTreeMap` of the FIFO replacer
  is an association list sorted by key (its iteration order);
* code that can panic (`unwrap`, `expect`, `create_new` failing) returns
  `Except Unit`;
* the blocking lock-table calls are modelled by their decision predicates:
  a call that would wait and time out (nobody else runs in the sequential
  semantics used here) returns the error the Rust code returns after
  `MAX_TIME`.
-/

/-! ## Byte and page primitives (src/file.rs, `Page`) -/

/-- `SIZE_OF_INT` from src/constants.rs: the byte width of an `i32`. -/
def SIZE_OF_INT : Nat := 4

/-- `usize::MAX`: the sentinel the LRU-K replacer uses for an infinite
backward k-distance. -/
def USIZE_MAX : Nat := 2 ^ 64 - 1

/-- Little-endian bytes of a 32-bit unsigned value (`u32::to_le_bytes`). -/
def enc4 (n : Nat) : List Nat :=
  [n % 256, n / 256 % 256, n / 65536 % 256, n / 16777216 % 256]

/-- Interpretation of a `Nat` in `[0, 2^32)` as an `i32` value
(two's complement). -/
def asI32 (m : Nat) : Int :=
  if m % 4294967296 < 2147483648 then ((m % 4294967296 : Nat) : Int)
  else ((m % 4294967296 : Nat) : Int) - 4294967296

/-- Rust `usize as i32`: truncation to the low 32 bits, reinterpreted. -/
def usizeAsI32 (n : Nat) : Int := asI32 n

/-- Rust `i32 as usize`: sign extension to 64 bits, reinterpreted. -/
def i32AsUsize (v : Int) : Nat := (v % 18446744073709551616).toNat

/-- A page is a total map from byte offsets to byte values. -/
def PageFn : Type := Nat → Nat

/-- The all-zero page (`Page::new` zero-fills its buffer). -/
def zeroPage : PageFn := fun _ => 0

/-- Overwrite the bytes `[off, off + w.length)` of a page. -/
def writeBytes (p : PageFn) (off : Nat) (w : List Nat) : PageFn :=
  fun i => if off ≤ i ∧ i < off + w.length then w.getD (i - off) 0 else p i

/-- Read `n` bytes starting at `off`. -/
def readBytes (p : PageFn) (off : Nat) (n : Nat) : List Nat :=
  (List.range n).map fun j => p (off + j)

/-- `Page::get_int`: read 4 little-endian bytes at `off` as an `i32`. -/
def pageGetInt (p : PageFn) (off : Nat) : Int :=
  asI32 (p off + 256 * p (off + 1) + 65536 * p (off + 2) + 16777216 * p (off + 3))

/-- `Page::set_int`: write the 4 little-endian bytes of an `i32` at `off`. -/
def pageSetInt (p : PageFn) (off : Nat) (v : Int) : PageFn :=
  writeBytes p off (enc4 ((v % 4294967296).toNat))

/-- `Page::set_bytes`: a 4-byte length prefix (`len as i32`) followed by the
raw bytes. -/
def pageSetBytes (p : PageFn) (off : Nat) (w : List Nat) : PageFn :=
  writeBytes (pageSetInt p off (usizeAsI32 w.length)) (off + SIZE_OF_INT) w

/-- `Page::get_bytes`: read the 4-byte length prefix, then that many bytes.
(`len as usize` sign-extends, as in the code.) -/
def pageGetBytes (p : PageFn) (off : Nat) : List Nat :=
  readBytes p (off + SIZE_OF_INT) (i32AsUsize (pageGetInt p off))

/-! ## Block identifiers (src/file.rs, `BlockId`) -/

/-- `BlockId`: (filename, block number).  Filenames are kept abstract as
strings. -/
structure BlockId where
  filename : String
  number : Nat
deriving DecidableEq, Repr

/-! ## Lock table (src/txn/lock_table.rs)

The Rust lock table keeps `locks: Mutex<HashMap<TxNum, HashMap<BlockId,
Lock>>>`: the outer key is the transaction number, so each transaction has its
own private block→lock map.  `has_x_lock` and `has_other_s_locks` only ever
inspect the entry of the requesting transaction.  The model below is the
sequential semantics of the code: a predicate that is false lets the call
proceed at once; one that stays true makes the call time out and return
`Err("lock aborted")` (nothing can change the map while we model a single
call). -/

abbrev TxNum := Nat

/-- `Lock` from src/txn/lock_table.rs. -/
inductive Lock where
  | XLock : Lock
  | SLock : Nat → Lock
deriving DecidableEq, Repr

/-- The lock table state: the outer map is keyed by transaction number. -/
structure LockTable where
  locks : List (TxNum × List (BlockId × Lock))
deriving DecidableEq, Repr

/-- Association-list lookup (HashMap::get). -/
def alGet {α β : Type} [DecidableEq α] (m : List (α × β)) (k : α) : Option β :=
  (m.find? fun p => p.1 = k).map (·.2)

/-- Association-list insert (HashMap::insert): replaces an existing entry. -/
def alPut {α β : Type} [DecidableEq α] (m : List (α × β)) (k : α) (v : β) :
    List (α × β) :=
  if (m.find? fun p => p.1 = k).isSome then
    m.map fun p => if p.1 = k then (k, v) else p
  else (k, v) :: m

/-- Association-list removal (HashMap::remove). -/
def alDel {α β : Type} [DecidableEq α] (m : List (α × β)) (k : α) :
    List (α × β) :=
  m.filter fun p => ¬ p.1 = k

instance {ε α : Type} [DecidableEq ε] [DecidableEq α] :
    DecidableEq (Except ε α) := fun a b =>
  match a, b with
  | .ok x, .ok y =>
    if h : x = y then .isTrue (by rw [h]) else .isFalse (by simp [h])
  | .error x, .error y =>
    if h : x = y then .isTrue (by rw [h]) else .isFalse (by simp [h])
  | .ok _, .error _ => .isFalse (by simp)
  | .error _, .ok _ => .isFalse (by simp)

namespace LockTable

/-- `LockTable::new`. -/
def new : LockTable := ⟨[]⟩

/-- The requesting transaction's own entry for the block. -/
def ownLock (t : LockTable) (txn : TxNum) (block : BlockId) : Option Lock :=
  (alGet t.locks txn).bind fun m => alGet m block

/-- `LockTable::has_x_lock`: does `txn`'s own map hold `XLock` on `block`? -/
def has_x_lock (t : LockTable) (txn : TxNum) (block : BlockId) : Bool :=
  t.ownLock txn block = some Lock.XLock

/-- `LockTable::has_other_s_locks`: does `txn`'s own map hold `SLock n` with
`n > 1` on `block`? -/
def has_other_s_locks (t : LockTable) (txn : TxNum) (block : BlockId) : Bool :=
  match t.ownLock txn block with
  | some (Lock.SLock n) => decide (n > 1)
  | _ => false

/-- Store `v` under `(txn, block)` (the code's
`map.entry(txn).or_default().insert(block, v)`). -/
def store (t : LockTable) (txn : TxNum) (block : BlockId) (v : Lock) :
    LockTable :=
  let inner := (alGet t.locks txn).getD []
  ⟨alPut t.locks txn (alPut inner block v)⟩

/-- `LockTable::s_lock`.  The wait predicate is `has_x_lock`; if it holds the
call times out with the error, otherwise the shared count of the
transaction's OWN entry is incremented. -/
def s_lock (t : LockTable) (txn : TxNum) (block : BlockId) :
    Except String LockTable :=
  if t.has_x_lock txn block then .error "lock aborted"
  else
    let new_val := match t.ownLock txn block with
      | some (Lock.SLock n) => Lock.SLock (n + 1)
      | _ => Lock.SLock 1
    .ok (t.store txn block new_val)

/-- `LockTable::x_lock`.  The wait predicate is `has_other_s_locks` (which
only sees the requesting transaction's own entry). -/
def x_lock (t : LockTable) (txn : TxNum) (block : BlockId) :
    Except String LockTable :=
  if t.has_other_s_locks txn block then .error "lock aborted"
  else .ok (t.store txn block Lock.XLock)

/-- `LockTable::unlock`. -/
def unlock (t : LockTable) (txn : TxNum) (block : BlockId) : LockTable :=
  match alGet t.locks txn with
  | none => t
  | some inner =>
    match alGet inner block with
    | some (Lock.SLock n) =>
      if n > 1 then ⟨alPut t.locks txn (alPut inner block (Lock.SLock (n - 1)))⟩
      else ⟨alPut t.locks txn (alDel inner block)⟩
    | _ => ⟨alPut t.locks txn (alDel inner block)⟩

end LockTable

/-! ## File manager (src/file.rs, `FileManager`)

`FileManager::get_file` looks a filename up in the open-file cache and, on a
miss, opens it with `OpenOptions::new().create_new(true)`, which FAILS when
the file already exists on disk; the `.expect("failed to create file")` then
panics.  The model keeps the cache as the list of filenames this instance has
created and the disk as a list of (filename, size in blocks). -/

structure FileManager where
  block_size : Nat
  open_files : List String
  disk_files : List (String × Nat)
deriving Repr

namespace FileManager

/-- `FileManager::get_file`: cache hit, or create-new (panics when the file
already exists on disk). -/
def get_file (fm : FileManager) (filename : String) :
    Except Unit FileManager :=
  if filename ∈ fm.open_files then .ok fm
  else if (alGet fm.disk_files filename).isSome then .error ()
  else .ok { fm with
    open_files := filename :: fm.open_files,
    disk_files := (filename, 0) :: fm.disk_files }

/-- `FileManager::length`: number of blocks in the file. -/
def length (fm : FileManager) (filename : String) :
    Except Unit (FileManager × Nat) := do
  let fm' ← fm.get_file filename
  .ok (fm', (alGet fm'.disk_files filename).getD 0)

/-- `FileManager::read` (the page contents are irrelevant here). -/
def read (fm : FileManager) (block : BlockId) : Except Unit FileManager := do
  fm.get_file block.filename

/-- `FileManager::write`. -/
def write (fm : FileManager) (block : BlockId) : Except Unit FileManager := do
  fm.get_file block.filename

/-- `FileManager::append`: extends the file by one zero block. -/
def append (fm : FileManager) (filename : String) :
    Except Unit (FileManager × BlockId) := do
  let (fm', n) ← fm.length filename
  let fm'' ← fm'.get_file filename
  .ok ({ fm'' with disk_files := alPut fm''.disk_files filename (n + 1) },
       BlockId.mk filename n)

/-- `LogManagerInner::new` (src/log.rs lines 22-45), reduced to its file
operations: it first asks `fm.length(logfile)`, then either appends a fresh
block and writes it (empty log) or reads the last block. -/
def logManagerNew (fm : FileManager) (logfile : String) :
    Except Unit FileManager := do
  let (fm', logsize) ← fm.length logfile
  if logsize = 0 then do
    let (fm'', _) ← fm'.append logfile
    fm''.write (BlockId.mk logfile 0)
  else
    fm'.read (BlockId.mk logfile (logsize - 1))

end FileManager

/-! ## Log manager flush counters and buffer frames
(src/log.rs `LogManager::flush`, src/buffer/buffer_manager.rs `Buffer`)

For the WAL-ordering claims only the `latest_lsn`/`last_saved_lsn` counters
and the order of the I/O calls matter; `LogCounters` abstracts the log
manager to exactly the state `LogManager::flush` consults and updates. -/

/-- Observable I/O events, in program order. -/
inductive Ev where
  | logWrite : Ev
  | dataWrite : BlockId → Ev
  | dataRead : BlockId → Ev
deriving DecidableEq, Repr

/-- The LSN counters of `LogManagerInner`. -/
structure LogCounters where
  latest_lsn : Nat
  last_saved_lsn : Nat
deriving DecidableEq, Repr

/-- `LogManager::flush(lsn)`: write the current log page (and advance
`last_saved_lsn` to `latest_lsn`) only when `lsn > last_saved_lsn`. -/
def LogCounters.flush (lm : LogCounters) (lsn : Nat) : LogCounters × List Ev :=
  if lsn > lm.last_saved_lsn then
    ({ lm with last_saved_lsn := lm.latest_lsn }, [Ev.logWrite])
  else (lm, [])

/-- A buffer frame's metadata (`Buffer` in src/buffer/buffer_manager.rs;
the page contents are not needed for the claims below). -/
structure BufState where
  block : Option BlockId
  txn_num : Option TxNum
  lsn : Option Nat
deriving DecidableEq, Repr

namespace BufState

/-- A freshly constructed frame (`Buffer::new`). -/
def fresh : BufState := ⟨none, none, none⟩

/-- `Buffer::set_modified`: record the modifying transaction; the LSN is
updated only when one is supplied. -/
def set_modified (b : BufState) (txn : TxNum) (lsn : Option Nat) : BufState :=
  { b with txn_num := some txn, lsn := if lsn.isSome then lsn else b.lsn }

/-- `Buffer::flush`: when dirty, `self.lm.flush(self.lsn.unwrap())` runs
first (the `unwrap` panics when no LSN was ever recorded), then the page is
written to its block and the dirty mark is cleared. -/
def flush (lm : LogCounters) (b : BufState) :
    Except Unit (LogCounters × BufState × List Ev) :=
  if b.txn_num.isSome then
    match b.lsn with
    | none => .error ()
    | some l =>
      let (lm', evs) := lm.flush l
      match b.block with
      | none => .error ()
      | some blk => .ok (lm', { b with txn_num := none }, evs ++ [Ev.dataWrite blk])
  else .ok (lm, b, [])

/-- `Buffer::assign_to_block`: flush the old contents, then adopt the new
block and read it from disk. -/
def assign_to_block (lm : LogCounters) (b : BufState) (block : BlockId) :
    Except Unit (LogCounters × BufState × List Ev) := do
  let (lm', b', evs) ← flush lm b
  .ok (lm', { b' with block := some block }, evs ++ [Ev.dataRead block])

end BufState

/-! ## FIFO replacer (src/buffer/replacer.rs, `Fifo`)

`Fifo` keeps `store: BTreeMap<usize, bool>` — ordered by KEY (the buffer
index), which is also its iteration order.  The model keeps the association
list sorted strictly by key, and all operations preserve that sortedness. -/

structure Fifo where
  store : List (Nat × Bool)
  available : Nat
deriving DecidableEq, Repr

/-- Insert into a key-sorted association list, replacing an existing binding
(`BTreeMap::insert`); returns the map and the previous value. -/
def btreePut (l : List (Nat × Bool)) (k : Nat) (v : Bool) :
    List (Nat × Bool) × Option Bool :=
  match l with
  | [] => ([(k, v)], none)
  | (k', v') :: rest =>
    if k < k' then ((k, v) :: (k', v') :: rest, none)
    else if k = k' then ((k, v) :: rest, some v')
    else
      let (tail, old) := btreePut rest k v
      ((k', v') :: tail, old)

namespace Fifo

/-- `Fifo::default`. -/
def new : Fifo := ⟨[], 0⟩

/-- `Fifo::record_access`: `store.insert(key, false)`; when the key was
present and evictable, `available` is decremented. -/
def record_access (f : Fifo) (key : Nat) : Fifo :=
  let (store', old) := btreePut f.store key false
  { store := store',
    available := if old = some true then f.available - 1 else f.available }

/-- `Fifo::evict`: first entry (in key order) whose flag is set; it is
removed and `available` decremented. -/
def evict (f : Fifo) : Option Nat × Fifo :=
  match f.store.find? (fun p => p.2) with
  | none => (none, f)
  | some (k, _) =>
    (some k, ⟨f.store.filter (fun p => ¬ p.1 = k), f.available - 1⟩)

/-- `Fifo::set_evictable`: `entry(key).and_modify(..)` — a no-op when the key
is absent; the counter moves only when the flag actually flips. -/
def set_evictable (f : Fifo) (key : Nat) (is : Bool) : Fifo :=
  match alGet f.store key with
  | none => f
  | some old =>
    { store := (btreePut f.store key is).1,
      available :=
        if is ∧ ¬ old then f.available + 1
        else if ¬ is ∧ old then f.available - 1
        else f.available }

end Fifo

/-! ## LRU-K replacer (src/buffer/replacer.rs, `LruK`) -/

/-- `LruKNode`: evictable flag and the last up-to-k access timestamps,
oldest first. -/
structure LruKNode where
  is_evictable : Bool
  history : List Nat
deriving DecidableEq, Repr

/-- `LruKNode::backward_k_distance`: `usize::MAX` with fewer than k recorded
accesses, else `current_ts - history.front()`. -/
def LruKNode.backward_k_distance (n : LruKNode) (current_ts k : Nat) : Nat :=
  if n.history.length < k then USIZE_MAX else current_ts - n.history.headI

/-- `LruKNode::least_recent_timestamp` (`history.front().unwrap()`; every
node in the store has a nonempty history, see `LruKSane`). -/
def LruKNode.least_recent_timestamp (n : LruKNode) : Nat := n.history.headI

structure LruK where
  store : List (Nat × LruKNode)
  k : Nat
  current_ts : Nat
  available : Nat
deriving DecidableEq, Repr

namespace LruK

/-- `LruK::default` (k = 2). -/
def new : LruK := ⟨[], 2, 0, 0⟩

/-- `LruK::record_access`. -/
def record_access (s : LruK) (key : Nat) : LruK :=
  let ts := s.current_ts + 1
  let node := (alGet s.store key).getD ⟨false, []⟩
  let hist := node.history ++ [ts]
  let node' : LruKNode :=
    ⟨false, if hist.length > s.k then hist.tail else hist⟩
  { s with
    current_ts := ts,
    available := if node.is_evictable then s.available - 1 else s.available,
    store := alPut s.store key node' }

/-- The selection loop of `LruK::evict`, folding over the store in iteration
order with the accumulator `(max_dist, earliest_ts, key)`. -/
def evictLoop (ts k : Nat) :
    List (Nat × LruKNode) → Nat → Nat → Option Nat → Nat × Nat × Option Nat
  | [], md, ets, key => (md, ets, key)
  | (kk, node) :: rest, md, ets, key =>
    if node.is_evictable then
      let dist := node.backward_k_distance ts k
      if dist < md then evictLoop ts k rest md ets key
      else
        let t := node.least_recent_timestamp
        if dist > md ∨ (dist = md ∧ t < ets) then
          evictLoop ts k rest dist t (some kk)
        else evictLoop ts k rest md ets key
    else evictLoop ts k rest md ets key

/-- `LruK::evict`: select by maximum backward-k-distance (ties by smallest
oldest timestamp), then remove the chosen entry. -/
def evict (s : LruK) : Option Nat × LruK :=
  match (evictLoop s.current_ts s.k s.store 0 USIZE_MAX none).2.2 with
  | none => (none, s)
  | some kk =>
    (some kk,
     { s with
       available := s.available - 1,
       store := s.store.filter (fun p => ¬ p.1 = kk) })

/-- `LruK::set_evictable`. -/
def set_evictable (s : LruK) (key : Nat) (is : Bool) : LruK :=
  match alGet s.store key with
  | none => s
  | some node =>
    { s with
      store := alPut s.store key { node with is_evictable := is },
      available :=
        if is ∧ ¬ node.is_evictable then s.available + 1
        else if ¬ is ∧ node.is_evictable then s.available - 1
        else s.available }

end LruK

/-! ## Replacer dispatch (`Box<dyn Replacer>` with its two impls) -/

/-- `EvictionPolicy` (src/buffer/replacer.rs; the code's default is LruK). -/
inductive EvictionPolicy where
  | fifo : EvictionPolicy
  | lruk : EvictionPolicy
deriving DecidableEq, Repr

inductive Repl where
  | fifo : Fifo → Repl
  | lruk : LruK → Repl
deriving DecidableEq, Repr

namespace Repl

def record_access : Repl → Nat → Repl
  | fifo f, k => fifo (f.record_access k)
  | lruk s, k => lruk (s.record_access k)

def evict : Repl → Option Nat × Repl
  | fifo f => let (r, f') := f.evict; (r, fifo f')
  | lruk s => let (r, s') := s.evict; (r, lruk s')

def set_evictable : Repl → Nat → Bool → Repl
  | fifo f, k, b => fifo (f.set_evictable k b)
  | lruk s, k, b => lruk (s.set_evictable k b)

/-- The keys currently marked evictable. -/
def evictableKeys : Repl → List Nat
  | fifo f => (f.store.filter (fun p => p.2)).map (·.1)
  | lruk s => (s.store.filter (fun p => p.2.is_evictable)).map (·.1)

/-- `impl From<EvictionPolicy> for Box<dyn Replacer>`: a fresh replacer of
the chosen policy. -/
def ofPolicy : EvictionPolicy → Repl
  | EvictionPolicy.fifo => fifo Fifo.new
  | EvictionPolicy.lruk => lruk LruK.new

end Repl

/-! ## Buffer pool (src/buffer/buffer_manager.rs, `BufferManagerInner`) -/

/-- `BufferMeta`: frame index and pin count of a resident block. -/
structure BufferMeta where
  pos : Nat
  pins : Nat
deriving DecidableEq, Repr

/-- `BufferManagerInner` together with the shared log-manager counters the
frames flush through. -/
structure BMState where
  buf_table : List (BlockId × BufferMeta)
  free_list : List Nat
  pool : List BufState
  replacer : Repl
  lm : LogCounters
deriving Repr

namespace BMState

/-- `BufferManagerInner::new`: `free_list: (0..capacity).collect()`
(a `Vec`, popped from the END), a fresh replacer of the chosen policy. -/
def init (capacity : Nat) (policy : EvictionPolicy) : BMState :=
  { buf_table := [],
    free_list := List.range capacity,
    pool := List.replicate capacity BufState.fresh,
    replacer := Repl.ofPolicy policy,
    lm := ⟨0, 0⟩ }

/-- `BufferManagerInner::pin`.  Mirrors the resolution order of the code:
resident block, else `free_list.pop()` (the LAST element of the `Vec`), else
`replacer.evict()`; a fresh frame is assigned (flushing its old contents)
before the table is updated and the access recorded. -/
def pin (s : BMState) (block : BlockId) : Except Unit (Option Nat × BMState) :=
  let existing := (alGet s.buf_table block).map (·.pos)
  let (posOpt, s1) :=
    match existing with
    | some p => (some p, s)
    | none =>
      match s.free_list.getLast? with
      | some p => (some p, { s with free_list := s.free_list.dropLast })
      | none =>
        let (r, rep') := s.replacer.evict
        (r, { s with replacer := rep' })
  match posOpt with
  | none => .ok (none, s1)
  | some pos =>
    match s1.pool.get? pos with
    | none => .ok (none, s1)
    | some buf => do
      let (lm', buf', _evs) ←
        if existing.isNone then buf.assign_to_block s1.lm block
        else .ok (s1.lm, buf, [])
      let table' :=
        match alGet s1.buf_table block with
        | some m => alPut s1.buf_table block { m with pins := m.pins + 1 }
        | none => alPut s1.buf_table block ⟨pos, 1⟩
      .ok (some pos,
        { s1 with
          pool := s1.pool.set pos buf',
          lm := lm',
          buf_table := table',
          replacer := s1.replacer.record_access pos })

/-- `BufferManagerInner::unpin` (the caller passes a frame whose `block`
field is `block`): decrement the pin count; at zero the block's table entry
is REMOVED and the frame marked evictable. -/
def unpin (s : BMState) (block : BlockId) : BMState :=
  match alGet s.buf_table block with
  | none => s
  | some m =>
    let pins' := m.pins - 1
    if pins' > 0 then
      { s with buf_table := alPut s.buf_table block { m with pins := pins' } }
    else
      { s with
        buf_table := alDel s.buf_table block,
        replacer := s.replacer.set_evictable m.pos true }

/-- `BufferManagerInner::flush_all(txn_num)`: walk the RESIDENT entries of
`buf_table` and flush every frame whose modifying transaction is `txn`. -/
def flush_all (s : BMState) (txn : TxNum) : Except Unit (BMState × List Ev) := do
  let step : BMState × List Ev → BlockId × BufferMeta →
      Except Unit (BMState × List Ev) := fun (st, acc) entry => do
    match st.pool.get? entry.2.pos with
    | none => .ok (st, acc)
    | some buf =>
      if buf.txn_num = some txn then do
        let (lm', buf', evs) ← buf.flush st.lm
        .ok ({ st with lm := lm', pool := st.pool.set entry.2.pos buf' },
             acc ++ evs)
      else .ok (st, acc)
  s.buf_table.foldlM step (s, [])

/-- `Buffer::set_modified` applied to the frame at `pos`. -/
def setModifiedAt (s : BMState) (pos : Nat) (txn : TxNum) (lsn : Option Nat) :
    BMState :=
  match s.pool.get? pos with
  | none => s
  | some b => { s with pool := s.pool.set pos (b.set_modified txn lsn) }

end BMState

/-- `RecoveryManager::commit` (src/txn/recovery.rs lines 28-32):
`flush_all(txn)`, append the Commit record, flush the log through its LSN. -/
def recoveryCommit (s : BMState) (txn : TxNum) :
    Except Unit (BMState × List Ev) := do
  let (s1, evs) ← s.flush_all txn
  let lsn := s1.lm.latest_lsn + 1
  let lm1 : LogCounters := { s1.lm with latest_lsn := lsn }
  let (lm2, evs2) := lm1.flush lsn
  .ok ({ s1 with lm := lm2 }, evs ++ evs2)

/-- The pin/unpin operation language of the buffer pool. -/
inductive PoolOp where
  | pin : BlockId → PoolOp
  | unpin : BlockId → PoolOp
deriving DecidableEq, Repr

/-- Run a sequence of pin/unpin calls (a pin that panics — impossible for
the clean frames these traces produce — would leave the state unchanged). -/
def runPool (s : BMState) : List PoolOp → BMState
  | [] => s
  | PoolOp.pin b :: rest =>
    match s.pin b with
    | .ok (_, s') => runPool s' rest
    | .error _ => runPool s rest
  | PoolOp.unpin b :: rest => runPool (s.unpin b) rest

/-! ## Log manager, byte level (src/log.rs) -/

/-- `LogManagerInner` over the log file's blocks (`disk`, block number ↦
page).  `logpage` is the in-memory page of `current_block`. -/
structure LogState where
  block_size : Nat
  disk : List PageFn
  logpage : PageFn
  current_block : Nat
  latest_lsn : Nat
  last_saved_lsn : Nat

namespace LogState

/-- `LogManagerInner::new` over an empty log file: append a fresh block,
set its boundary to `block_size`, write it out. -/
def init (bs : Nat) : LogState :=
  let d1 : List PageFn := [zeroPage]
  let p := pageSetInt zeroPage 0 (usizeAsI32 bs)
  { block_size := bs,
    disk := d1.set 0 p,
    logpage := p,
    current_block := 0,
    latest_lsn := 0,
    last_saved_lsn := 0 }

/-- `LogManagerInner::flush`: write the current page, advance
`last_saved_lsn`. -/
def flushPage (s : LogState) : LogState :=
  { s with
    disk := s.disk.set s.current_block s.logpage,
    last_saved_lsn := s.latest_lsn }

/-- `LogManagerInner::append_new_block`: `fm.append` a zero block, reset the
in-memory page's boundary to `block_size`, write the page to the new block.
Returns the new block number. -/
def append_new_block (s : LogState) : LogState × Nat :=
  let newNum := s.disk.length
  let d1 := s.disk ++ [zeroPage]
  let p := pageSetInt s.logpage 0 (usizeAsI32 s.block_size)
  ({ s with disk := d1.set newNum p, logpage := p }, newNum)

/-- `LogManagerInner::append`.  The code asserts
`record.len() + 2 * SIZE_OF_INT <= block_size` and panics otherwise; every
record considered below satisfies that bound.  Returns the new LSN. -/
def append (s : LogState) (record : List Nat) : LogState × Nat :=
  let boundary := pageGetInt s.logpage 0
  let bytes_needed := record.length + SIZE_OF_INT
  let s1 :=
    if boundary - usizeAsI32 bytes_needed < (SIZE_OF_INT : Int) then
      let sf := s.flushPage
      let (s2, nb) := sf.append_new_block
      { s2 with current_block := nb }
    else s
  let boundary1 := pageGetInt s1.logpage 0
  let record_pos := i32AsUsize boundary1 - bytes_needed
  let lp := pageSetInt (pageSetBytes s1.logpage record_pos record) 0
    (usizeAsI32 record_pos)
  ({ s1 with logpage := lp, latest_lsn := s1.latest_lsn + 1 },
   s1.latest_lsn + 1)

/-- Append a whole list of records in order. -/
def appendAll (s : LogState) (records : List (List Nat)) : LogState :=
  records.foldl (fun st r => (st.append r).1) s

end LogState

/-- `LogIterator` (src/log.rs lines 131-176). -/
structure LogIt where
  block_size : Nat
  disk : List PageFn
  block : Nat
  page : PageFn
  current_pos : Nat

namespace LogIt

/-- `LogManager::iterator`: flush the current page, then start at the
current block's boundary (`LogIterator::new` + `move_to_block`). -/
def init (s : LogState) : LogIt :=
  let s' := s.flushPage
  let pg := s'.disk.getD s'.current_block zeroPage
  { block_size := s'.block_size,
    disk := s'.disk,
    block := s'.current_block,
    page := pg,
    current_pos := i32AsUsize (pageGetInt pg 0) }

/-- `LogIterator::next`: on block end move to the previous block, then read
the record at `current_pos` and advance past it. -/
def next (it : LogIt) : Option (List Nat × LogIt) :=
  if it.current_pos < it.block_size ∨ it.block > 0 then
    let it1 :=
      if it.current_pos = it.block_size then
        let b := it.block - 1
        let pg := it.disk.getD b zeroPage
        { it with block := b, page := pg,
                  current_pos := i32AsUsize (pageGetInt pg 0) }
      else it
    let r := pageGetBytes it1.page it1.current_pos
    some (r, { it1 with current_pos := it1.current_pos + SIZE_OF_INT + r.length })
  else none

/-- Drain up to `n` records from the iterator. -/
def drain : LogIt → Nat → List (List Nat) × LogIt
  | it, 0 => ([], it)
  | it, n + 1 =>
    match it.next with
    | none => ([], it)
    | some (r, it') =>
      let (rs, itF) := it'.drain n
      (r :: rs, itF)

end LogIt

/-! ## Log records (src/txn/recovery.rs)

Strings (`filename`, STRING values) are modelled by their UTF-8 bytes; on
valid UTF-8 the code's `String::from_utf8_lossy` is the identity, so the
byte list determines the string exactly. -/

/-- `UpdateValue`: INT carries an `i32`, STRING its UTF-8 bytes. -/
inductive UpdVal where
  | INT : Int → UpdVal
  | STRING : List Nat → UpdVal
deriving DecidableEq, Repr

/-- `UpdateValue::data_type as i32`. -/
def UpdVal.data_type : UpdVal → Int
  | INT _ => 0
  | STRING _ => 1

/-- `UpdateValue::size`. -/
def UpdVal.size : UpdVal → Nat
  | INT _ => SIZE_OF_INT
  | STRING s => SIZE_OF_INT + s.length

/-- `LogRecord` (the in-memory enum).  `txn_num` and `offset` are `usize` in
the code, the block number a `usize` inside `BlockId`. -/
inductive LogRec where
  | checkpoint : LogRec
  | start : Nat → LogRec
  | commit : Nat → LogRec
  | rollback : Nat → LogRec
  | update : Nat → List Nat → Nat → Nat → UpdVal → LogRec
deriving DecidableEq, Repr

/-- `LogRecord::operation() as i32` (the kind tag). -/
def LogRec.opCode : LogRec → Int
  | .checkpoint => 0
  | .start _ => 1
  | .commit _ => 2
  | .rollback _ => 3
  | .update _ _ _ _ _ => 4

/-- `LogRecord::write_to_log` up to the final `lm.append`: the byte sequence
of the record as laid out in a fresh page of exactly the right size. -/
def LogRec.encode : LogRec → List Nat
  | .checkpoint =>
    readBytes (pageSetInt zeroPage 0 0) 0 SIZE_OF_INT
  | .start txn =>
    readBytes (pageSetInt (pageSetInt zeroPage 0 1) SIZE_OF_INT
      (usizeAsI32 txn)) 0 (2 * SIZE_OF_INT)
  | .commit txn =>
    readBytes (pageSetInt (pageSetInt zeroPage 0 2) SIZE_OF_INT
      (usizeAsI32 txn)) 0 (2 * SIZE_OF_INT)
  | .rollback txn =>
    readBytes (pageSetInt (pageSetInt zeroPage 0 3) SIZE_OF_INT
      (usizeAsI32 txn)) 0 (2 * SIZE_OF_INT)
  | .update txn fname bnum off v =>
    let tpos := SIZE_OF_INT
    let fpos := tpos + SIZE_OF_INT
    let bpos := fpos + (SIZE_OF_INT + fname.length)
    let dtpos := bpos + SIZE_OF_INT
    let opos := dtpos + SIZE_OF_INT
    let vpos := opos + SIZE_OF_INT
    let p0 := pageSetInt zeroPage 0 4
    let p1 := pageSetInt p0 tpos (usizeAsI32 txn)
    let p2 := pageSetBytes p1 fpos fname
    let p3 := pageSetInt p2 bpos (usizeAsI32 bnum)
    let p4 := pageSetInt p3 dtpos v.data_type
    let p5 := pageSetInt p4 opos (usizeAsI32 off)
    let p6 := match v with
      | .INT n => pageSetInt p5 vpos n
      | .STRING s => pageSetBytes p5 vpos s
    readBytes p6 0 (vpos + v.size)

/-- `LogRecord::new` (decoding).  A bad kind tag yields `none` (the code's
`try_from` / `None`); a bad `value_type` tag also yields `none` here where
the code would panic on its `expect` — the difference is invisible to the
round-trip claims. -/
def LogRec.decode (bytes : List Nat) : Option LogRec :=
  let p : PageFn := fun i => bytes.getD i 0
  let tag := pageGetInt p 0
  if tag = 0 then some .checkpoint
  else if tag = 1 then some (.start (i32AsUsize (pageGetInt p SIZE_OF_INT)))
  else if tag = 2 then some (.commit (i32AsUsize (pageGetInt p SIZE_OF_INT)))
  else if tag = 3 then some (.rollback (i32AsUsize (pageGetInt p SIZE_OF_INT)))
  else if tag = 4 then
    let tpos := SIZE_OF_INT
    let txn := i32AsUsize (pageGetInt p tpos)
    let fpos := tpos + SIZE_OF_INT
    let fname := pageGetBytes p fpos
    let bpos := fpos + (SIZE_OF_INT + fname.length)
    let bnum := i32AsUsize (pageGetInt p bpos)
    let dtpos := bpos + SIZE_OF_INT
    let dt := pageGetInt p dtpos
    let opos := dtpos + SIZE_OF_INT
    let off := i32AsUsize (pageGetInt p opos)
    let vpos := opos + SIZE_OF_INT
    if dt = 0 then some (.update txn fname bnum off (.INT (pageGetInt p vpos)))
    else if dt = 1 then
      some (.update txn fname bnum off (.STRING (pageGetBytes p vpos)))
    else none
  else none

/-! ## Predicates used by the theorems -/

/-- The records of one log block read left-to-right from position `pos` to
exactly the block end `bs`: each record is read by `Page::get_bytes` and the
cursor advances past its 4-byte length prefix and payload. -/
inductive BlockRecs (bs : Nat) (page : PageFn) : Nat → List (List Nat) → Prop where
  | nil : BlockRecs bs page bs []
  | cons {pos : Nat} {r : List Nat} {l : List (List Nat)} :
      pos < bs → pageGetBytes page pos = r →
      BlockRecs bs page (pos + SIZE_OF_INT + r.length) l →
      BlockRecs bs page pos (r :: l)

/-- A well-formed log block holding `chunk` (in append order): its boundary
field is some `bd ≤ bs`, and reading left-to-right from `bd` yields the
records latest-first. -/
def GoodBlock (bs : Nat) (page : PageFn) (chunk : List (List Nat)) : Prop :=
  ∃ bd, bd ≤ bs ∧ pageGetInt page 0 = (bd : Int) ∧
    BlockRecs bs page bd chunk.reverse

/-- The inductive invariant of the log manager: `chunks.getD k []` is the
(append-ordered) list of records living in block `k`; retired blocks are
nonempty and already on disk, the current block is the in-memory page. -/
def LogInv (s : LogState) (chunks : List (List (List Nat))) : Prop :=
  s.disk.length = s.current_block + 1 ∧
  chunks.length = s.current_block + 1 ∧
  GoodBlock s.block_size s.logpage (chunks.getD s.current_block []) ∧
  ∀ k, k < s.current_block →
    GoodBlock s.block_size (s.disk.getD k zeroPage) (chunks.getD k []) ∧
    chunks.getD k [] ≠ []

/-- The records the iterator yields AFTER finishing block `c`: the chunks
of blocks `c-1, …, 0`, each reversed (latest record first). -/
def belowRecs (chunks : List (List (List Nat))) (c : Nat) : List (List Nat) :=
  (((chunks.take c).map List.reverse).reverse).join

/-- Sanity facts any reachable LRU-K state satisfies (every node in the
store was created by `record_access`, so its history is nonempty, and every
recorded timestamp is a past value of the strictly increasing clock). -/
def LruKSane (s : LruK) : Prop :=
  ∀ p ∈ s.store, p.2.is_evictable →
    p.2.history ≠ [] ∧
    (s.k ≤ p.2.history.length → p.2.history.headI < s.current_ts)

instance (s : LruK) : Decidable (LruKSane s) := by
  unfold LruKSane; infer_instance

/-- A FIFO store as the `BTreeMap` keeps it: strictly sorted by key. -/
def FifoSorted (f : Fifo) : Prop :=
  f.store.Pairwise (fun p q => p.1 < q.1)

instance (f : Fifo) : Decidable (FifoSorted f) := by
  unfold FifoSorted; infer_instance

/-- A `record_access`/`set_evictable` call history for the FIFO replacer. -/
inductive FifoOp where
  | ra : Nat → FifoOp
  | se : Nat → Bool → FifoOp
deriving DecidableEq, Repr

/-- Replay a call history against the FIFO replacer. -/
def runFifo (f : Fifo) : List FifoOp → Fifo
  | [] => f
  | FifoOp.ra k :: rest => runFifo (f.record_access k) rest
  | FifoOp.se k b :: rest => runFifo (f.set_evictable k b) rest

/-- The keys of a call history in order of first insertion
(first `record_access`) — the order the claim's "earliest-inserted" refers
to. -/
def fifoInsertionOrder (ops : List FifoOp) : List Nat :=
  ops.foldl
    (fun acc op =>
      match op with
      | FifoOp.ra k => if k ∈ acc then acc else acc ++ [k]
      | FifoOp.se _ _ => acc)
    []

/-- The earliest-inserted key among the currently evictable entries: what
the claim says `Fifo::evict` returns. -/
def earliestInsertedEvictable (ops : List FifoOp) (f : Fifo) : Option Nat :=
  (fifoInsertionOrder ops).find? fun k => alGet f.store k = some true

/-- Two buffer-table entries are compatible when their blocks differ and
their frames differ. -/
def TableDisj (p q : BlockId × BufferMeta) : Prop :=
  p.1 ≠ q.1 ∧ p.2.pos ≠ q.2.pos

/-- Structural well-formedness of a replacer state: the FIFO store is
sorted by key, as a `BTreeMap` keeps it (nothing is needed of LRU-K). -/
def ReplWF : Repl → Prop
  | Repl.fifo f => FifoSorted f
  | Repl.lruk _ => True

/-- The pool invariant: resident blocks are pairwise distinct and occupy
pairwise distinct frames; the free list is duplicate-free and disjoint from
the resident frames; every frame the replacer would hand out is neither
resident nor free. -/
def PoolInv (s : BMState) : Prop :=
  s.buf_table.Pairwise TableDisj ∧
  s.free_list.Nodup ∧
  (∀ m ∈ s.buf_table, m.2.pos ∉ s.free_list) ∧
  (∀ e ∈ s.replacer.evictableKeys,
    (∀ m ∈ s.buf_table, e ≠ m.2.pos) ∧ e ∉ s.free_list) ∧
  ReplWF s.replacer

/-- Candidate `(d1, t1)` is strictly better than `(d2, t2)` in the LRU-K
selection order: larger backward-k-distance, ties by smaller oldest
timestamp. -/
def betterCand (d1 t1 d2 t2 : Nat) : Prop := d1 > d2 ∨ (d1 = d2 ∧ t1 < t2)

/-! ## Concrete scenarios referenced by theorems -/

/-- The block used by the concrete counterexample traces. -/
def tblk : BlockId := ⟨"testfile", 1⟩

/-- A second block, used where a distinct block is needed. -/
def tblk2 : BlockId := ⟨"testfile", 2⟩

/-- C2 scenario: capacity-2 pool (default LRU-K policy); transaction 7 pins
`tblk` (frame 1 from the free list), modifies it (its update produced LSN 1),
then unpins it to pin count 0 before committing. -/
def c2state : BMState :=
  let s0 := BMState.init 2 EvictionPolicy.lruk
  let s1 := match s0.pin tblk with
    | .ok (_, s) => s
    | .error _ => s0
  let s2 := { s1.setModifiedAt 1 7 (some 1) with lm := ⟨1, 0⟩ }
  s2.unpin tblk

/-- A frame after a sequence of `set_modified(txn, None)` calls (updates
that generated no log record). -/
def dirtyNoLsn (b0 : BufState) (calls : List TxNum) : BufState :=
  calls.foldl (fun acc t => acc.set_modified t none) b0

/-- All numeric fields of the record are `i32`-representable (the encoder
casts `usize` fields with `as i32`, so larger values are mangled — see the
counterexample for C6). -/
def LogRecOk : LogRec → Prop
  | LogRec.checkpoint => True
  | LogRec.start t => t < 2147483648
  | LogRec.commit t => t < 2147483648
  | LogRec.rollback t => t < 2147483648
  | LogRec.update t f bn off v =>
    t < 2147483648 ∧ f.length < 2147483648 ∧ bn < 2147483648 ∧
    off < 2147483648 ∧
    match v with
    | UpdVal.INT n => -2147483648 ≤ n ∧ n < 2147483648
    | UpdVal.STRING s => s.length < 2147483648

instance : ∀ r : LogRec, Decidable (LogRecOk r) := fun r => by
  cases r with
  | checkpoint => exact Decidable.isTrue trivial
  | start t => unfold LogRecOk; infer_instance
  | commit t => unfold LogRecOk; infer_instance
  | rollback t => unfold LogRecOk; infer_instance
  | update t f bn off v =>
    unfold LogRecOk
    cases v <;> infer_instance

/-! # Theorems -/

/-! ### C1 — lock table exclusivity -/

/-- C1 (code_bug evidence): the lock table keys its map by transaction
number first (`HashMap<TxNum, HashMap<BlockId, Lock>>`), so the wait
predicates of `s_lock`/`x_lock` only ever inspect the requesting
transaction's own entry.  Starting from the empty table, transaction 1 and
transaction 2 both acquire an Exclusive lock on the same block, and both
calls succeed immediately — the block is simultaneously Exclusive for two
distinct transactions, refuting the claimed invariant. -/
theorem c1_two_exclusive_locks_on_same_block :
    (LockTable.new.x_lock 1 tblk).bind (fun t1 => t1.x_lock 2 tblk) =
      Except.ok (LockTable.mk
        [(2, [(tblk, Lock.XLock)]), (1, [(tblk, Lock.XLock)])]) ∧
    (LockTable.mk [(2, [(tblk, Lock.XLock)]), (1, [(tblk, Lock.XLock)])]
      |>.has_x_lock 1 tblk) = true ∧
    (LockTable.mk [(2, [(tblk, Lock.XLock)]), (1, [(tblk, Lock.XLock)])]
      |>.has_x_lock 2 tblk) = true := by
  decide

/-! ### C2 — commit durability -/

/-- C2 (code_bug evidence): in `c2state` frame 1 is dirty with modifying
transaction 7, but its block was unpinned to pin count 0, which removed the
block's `buf_table` entry.  `RecoveryManager::commit(7)` therefore flushes
nothing (`flush_all` walks only `buf_table`): the only I/O event of the
whole commit is the log flush of the Commit record, no data page is ever
written, and the frame is still marked dirty by transaction 7 after commit
returns. -/
theorem c2_commit_skips_unpinned_dirty_frame :
    (recoveryCommit c2state 7).map
        (fun r => (r.2, (r.1.pool.get? 1).map (·.txn_num))) =
      Except.ok ([Ev.logWrite], some (some 7)) ∧
    (c2state.pool.get? 1).map (·.txn_num) = some (some 7) := by
  decide

/-! ### C3 — write-ahead logging order -/

/-- C3: whenever a dirty frame (modifying transaction set, LSN `L`) is
written to the data file — by `Buffer::flush` directly (the `flush_all`
path) or via `Buffer::assign_to_block` (frame reassignment in `pin`) — the
log manager flush through `L` happens strictly before the data write: the
event trace is the log-flush events followed by the data write, and the log
counters in force at the write satisfy `last_saved_lsn ≥ L`.  The
hypothesis `L ≤ latest_lsn` holds of every frame LSN, which was returned by
an earlier `LogManager::append`. -/
theorem c3_wal_flush_before_data_write
    (lm : LogCounters) (b : BufState) (t : TxNum) (L : Nat) (blk nb : BlockId)
    (h1 : b.txn_num = some t) (h2 : b.lsn = some L) (h3 : b.block = some blk)
    (h4 : L ≤ lm.latest_lsn) :
    (BufState.flush lm b =
        Except.ok ((lm.flush L).1, { b with txn_num := none },
          (lm.flush L).2 ++ [Ev.dataWrite blk]) ∧
      L ≤ (lm.flush L).1.last_saved_lsn) ∧
    (BufState.assign_to_block lm b nb =
        Except.ok ((lm.flush L).1,
          { b with txn_num := none, block := some nb },
          ((lm.flush L).2 ++ [Ev.dataWrite blk]) ++ [Ev.dataRead nb]) ∧
      L ≤ (lm.flush L).1.last_saved_lsn) := by
  have hsaved : L ≤ (lm.flush L).1.last_saved_lsn := by
    unfold LogCounters.flush
    by_cases h : L > lm.last_saved_lsn
    · simp only [h, if_pos]; exact h4
    · simp only [h, if_neg, not_false_iff]; omega
  have hflush : BufState.flush lm b =
      Except.ok ((lm.flush L).1, { b with txn_num := none },
        (lm.flush L).2 ++ [Ev.dataWrite blk]) := by
    unfold BufState.flush
    rw [h2, h3, h1]
    rfl
  refine ⟨⟨hflush, hsaved⟩, ⟨?_, hsaved⟩⟩
  unfold BufState.assign_to_block
  rw [hflush]
  rfl

/-- C3 witness: a concrete dirty frame with LSN 3 under log counters
(latest 5, last saved 0). -/
theorem c3_wal_witness :
    (BufState.flush ⟨5, 0⟩ ⟨some tblk, some 1, some 3⟩ =
        Except.ok ((LogCounters.flush ⟨5, 0⟩ 3).1,
          { (⟨some tblk, some 1, some 3⟩ : BufState) with txn_num := none },
          (LogCounters.flush ⟨5, 0⟩ 3).2 ++ [Ev.dataWrite tblk]) ∧
      3 ≤ (LogCounters.flush ⟨5, 0⟩ 3).1.last_saved_lsn) ∧
    (BufState.assign_to_block ⟨5, 0⟩ ⟨some tblk, some 1, some 3⟩ tblk2 =
        Except.ok ((LogCounters.flush ⟨5, 0⟩ 3).1,
          { (⟨some tblk, some 1, some 3⟩ : BufState) with
              txn_num := none, block := some tblk2 },
          ((LogCounters.flush ⟨5, 0⟩ 3).2 ++ [Ev.dataWrite tblk]) ++
            [Ev.dataRead tblk2]) ∧
      3 ≤ (LogCounters.flush ⟨5, 0⟩ 3).1.last_saved_lsn) :=
  c3_wal_flush_before_data_write ⟨5, 0⟩ ⟨some tblk, some 1, some 3⟩ 1 3 tblk
    tblk2 rfl rfl rfl (by norm_num)

/-! ### C4 — block-to-frame uniqueness -/

/-- C4 counterexample: capacity-2 pool (default LRU-K policy).  Pin `tblk`
(it lands in frame 1, popped from the free list), unpin it to pin count 0
(this removes the block's `buf_table` entry but leaves frame 1's `block`
field untouched), then pin `tblk` again: the lookup misses, frame 0 is
popped from the free list and assigned to `tblk`.  Frames 0 and 1 — two
distinct frames — now simultaneously hold the same block, refuting the
claim as stated. -/
theorem c4_two_frames_hold_same_block :
    (((runPool (BMState.init 2 EvictionPolicy.lruk)
        [PoolOp.pin tblk, PoolOp.unpin tblk, PoolOp.pin tblk]).pool.get? 0).map
          (·.block) = some (some tblk)) ∧
    (((runPool (BMState.init 2 EvictionPolicy.lruk)
        [PoolOp.pin tblk, PoolOp.unpin tblk, PoolOp.pin tblk]).pool.get? 1).map
          (·.block) = some (some tblk)) := by
  decide

/-! ### C7 — FIFO eviction order counterexample -/

/-- C7 counterexample: the FIFO replacer stores its entries in a
`BTreeMap<usize, bool>` ordered by KEY, and `evict` scans in key order.
After the call history `record_access(2); record_access(1);
set_evictable(2, true); set_evictable(1, true)` the earliest-inserted
evictable key is 2, but `evict()` returns 1 (the smallest key) — the claim
as stated fails. -/
theorem c7_evicts_smallest_key_not_earliest_inserted :
    ((runFifo Fifo.new
        [FifoOp.ra 2, FifoOp.ra 1, FifoOp.se 2 true, FifoOp.se 1 true]).evict).1 =
      some 1 ∧
    earliestInsertedEvictable
        [FifoOp.ra 2, FifoOp.ra 1, FifoOp.se 2 true, FifoOp.se 1 true]
        (runFifo Fifo.new
          [FifoOp.ra 2, FifoOp.ra 1, FifoOp.se 2 true, FifoOp.se 1 true]) =
      some 2 ∧
    (some 1 : Option Nat) ≠ some 2 := by
  decide

/-! ### C9 — flush of a dirty frame with no LSN panics -/

/-- C9: a frame made dirty only by `set_modified` calls that supplied no LSN
(updates with `ok_to_log = false`) keeps `lsn = none`; any later flush —
`Buffer::flush` itself, frame reassignment via `Buffer::assign_to_block`
during `pin`, or `BufferManagerInner::flush_all` at commit/rollback over a
pool containing the frame — hits `self.lsn.unwrap()` and panics instead of
writing the page. -/
theorem c9_flush_of_unlogged_dirty_frame_panics
    (b0 : BufState) (calls : List TxNum) (hne : calls ≠ [])
    (hlsn : b0.lsn = none) (lm : LogCounters) (nb : BlockId) (rep : Repl) :
    (dirtyNoLsn b0 calls).txn_num.isSome ∧
    (dirtyNoLsn b0 calls).lsn = none ∧
    BufState.flush lm (dirtyNoLsn b0 calls) = Except.error () ∧
    BufState.assign_to_block lm (dirtyNoLsn b0 calls) nb = Except.error () ∧
    ∀ t : TxNum, (dirtyNoLsn b0 calls).txn_num = some t →
      BMState.flush_all ⟨[(nb, ⟨0, 1⟩)], [], [dirtyNoLsn b0 calls], rep, lm⟩ t =
        Except.error () := by
  have hlsn' : ∀ (l : List TxNum) (b : BufState), b.lsn = none →
      (dirtyNoLsn b l).lsn = none := by
    intro l
    induction l with
    | nil => intro b hb; exact hb
    | cons t rest ih =>
      intro b hb
      exact ih _ (by simp [BufState.set_modified, hb])
  have htxn : ∀ (l : List TxNum) (b : BufState), b.txn_num.isSome →
      (dirtyNoLsn b l).txn_num.isSome := by
    intro l
    induction l with
    | nil => intro b hb; exact hb
    | cons t rest ih =>
      intro b _
      exact ih _ (by simp [BufState.set_modified])
  have h1 : (dirtyNoLsn b0 calls).txn_num.isSome := by
    match calls, hne with
    | t :: rest, _ =>
      have he : dirtyNoLsn b0 (t :: rest) = dirtyNoLsn (b0.set_modified t none) rest := rfl
      rw [he]
      exact htxn _ _ (by simp [BufState.set_modified])
  have h2 : (dirtyNoLsn b0 calls).lsn = none := hlsn' calls b0 hlsn
  have h3 : BufState.flush lm (dirtyNoLsn b0 calls) = Except.error () := by
    unfold BufState.flush
    rw [h2, if_pos h1]
  refine ⟨h1, h2, h3, ?_, ?_⟩
  · unfold BufState.assign_to_block
    rw [h3]
    rfl
  · intro t ht
    unfold BMState.flush_all
    simp only [List.foldlM_cons, List.foldlM_nil]
    simp only [List.get?, ht, if_pos, h3]
    rfl

/-- C9 witness: one `set_modified(3, None)` call on a fresh frame that was
assigned `tblk`. -/
theorem c9_witness :
    (dirtyNoLsn ⟨some tblk, none, none⟩ [3]).txn_num.isSome ∧
    (dirtyNoLsn ⟨some tblk, none, none⟩ [3]).lsn = none ∧
    BufState.flush ⟨4, 4⟩ (dirtyNoLsn ⟨some tblk, none, none⟩ [3]) =
      Except.error () ∧
    BufState.assign_to_block ⟨4, 4⟩ (dirtyNoLsn ⟨some tblk, none, none⟩ [3])
      tblk2 = Except.error () ∧
    ∀ t : TxNum, (dirtyNoLsn ⟨some tblk, none, none⟩ [3]).txn_num = some t →
      BMState.flush_all
        ⟨[(tblk2, ⟨0, 1⟩)], [], [dirtyNoLsn ⟨some tblk, none, none⟩ [3]],
          Repl.lruk LruK.new, ⟨4, 4⟩⟩ t = Except.error () :=
  c9_flush_of_unlogged_dirty_frame_panics ⟨some tblk, none, none⟩ [3]
    (by simp) rfl ⟨4, 4⟩ tblk2 (Repl.lruk LruK.new)

/-! ### C10 — create-new file semantics -/

/-- C10: `FileManager::get_file` opens uncached files with
`OpenOptions::create_new(true)`, which fails (and the `expect` panics) when
the file already exists in the database directory; hence every operation
that must open such a file — `read`, `write`, `append`, `length`, and
`LogManagerInner::new` over an existing (here non-empty) log file — panics.
Only files first created by this `FileManager` instance (cached in
`open_files`) are accessible. -/
theorem c10_preexisting_file_panics
    (fm : FileManager) (f : String) (n k : Nat)
    (hdisk : alGet fm.disk_files f = some n) (hopen : f ∉ fm.open_files)
    (hn : 0 < n) :
    fm.get_file f = Except.error () ∧
    fm.read ⟨f, k⟩ = Except.error () ∧
    fm.write ⟨f, k⟩ = Except.error () ∧
    fm.append f = Except.error () ∧
    fm.length f = Except.error () ∧
    fm.logManagerNew f = Except.error () := by
  have hg : fm.get_file f = Except.error () := by
    unfold FileManager.get_file
    rw [if_neg hopen, hdisk]
    rfl
  have hlen : fm.length f = Except.error () := by
    unfold FileManager.length
    rw [hg]
    rfl
  refine ⟨hg, ?_, ?_, ?_, hlen, ?_⟩
  · unfold FileManager.read; rw [hg]
  · unfold FileManager.write; rw [hg]
  · unfold FileManager.append; rw [hlen]; rfl
  · unfold FileManager.logManagerNew; rw [hlen]; rfl

/-- C10 witness: a database directory already containing a 3-block
`db.log` that this `FileManager` instance has not created. -/
theorem c10_witness :
    (FileManager.mk 400 [] [("db.log", 3)]).get_file "db.log" =
      Except.error () ∧
    (FileManager.mk 400 [] [("db.log", 3)]).read ⟨"db.log", 0⟩ =
      Except.error () ∧
    (FileManager.mk 400 [] [("db.log", 3)]).write ⟨"db.log", 0⟩ =
      Except.error () ∧
    (FileManager.mk 400 [] [("db.log", 3)]).append "db.log" =
      Except.error () ∧
    (FileManager.mk 400 [] [("db.log", 3)]).length "db.log" =
      Except.error () ∧
    (FileManager.mk 400 [] [("db.log", 3)]).logManagerNew "db.log" =
      Except.error () :=
  c10_preexisting_file_panics (FileManager.mk 400 [] [("db.log", 3)])
    "db.log" 3 0 (by decide) (by decide) (by norm_num)

/-! ### C7 — FIFO replacer, corrected statement -/

/-- `find?` over a key-sorted store returns the evictable entry with the
SMALLEST key (skipping non-evictable entries), or `none` when no entry is
evictable. -/
theorem fifo_find_min (l : List (Nat × Bool))
    (hs : l.Pairwise (fun p q => p.1 < q.1)) :
    (l.find? (fun p => p.2) = none → ∀ p ∈ l, p.2 = false) ∧
    (∀ k v, l.find? (fun p => p.2) = some (k, v) →
      v = true ∧ (k, true) ∈ l ∧ ∀ p ∈ l, p.2 = true → k ≤ p.1) := by
  induction l with
  | nil => constructor
           · intro _ p hp; cases hp
           · intro k v h; cases h
  | cons hd tl ih =>
    rcases List.pairwise_cons.mp hs with ⟨hhd, htl⟩
    rcases ih htl with ⟨ihn, ihs⟩
    by_cases hv : hd.2
    · constructor
      · intro h; rw [List.find?_cons_of_pos _ (by simpa using hv)] at h; cases h
      · intro k v h
        rw [List.find?_cons_of_pos _ (by simpa using hv)] at h
        injection h with h'
        subst h'
        refine ⟨hv, ?_, ?_⟩
        · have hv2 : v = true := by simpa using hv
          have he : (k, true) = (k, v) := by rw [hv2]
          rw [he]
          exact List.mem_cons_self _ _
        · intro p hp _
          rcases List.mem_cons.mp hp with h1 | h2
          · rw [h1]
          · exact le_of_lt (hhd p h2)
    · have hneg : (fun (p : Nat × Bool) => p.2) hd = false := by simpa using hv
      constructor
      · intro h
        rw [List.find?_cons_of_neg _ (by simp [hneg])] at h
        intro p hp
        rcases List.mem_cons.mp hp with h1 | h2
        · rw [h1]; simpa using hv
        · exact ihn h p h2
      · intro k v h
        rw [List.find?_cons_of_neg _ (by simp [hneg])] at h
        rcases ihs k v h with ⟨h1, h2, h3⟩
        refine ⟨h1, List.mem_cons_of_mem _ h2, ?_⟩
        intro p hp hpt
        rcases List.mem_cons.mp hp with hh | ht
        · exfalso; rw [hh] at hpt; simp [hpt] at hneg
        · exact h3 p ht hpt

/-- Looking up a member of a key-sorted association list. -/
theorem alGet_of_mem_sorted (l : List (Nat × Bool)) (k : Nat) (v : Bool)
    (hs : l.Pairwise (fun p q => p.1 < q.1)) (hm : (k, v) ∈ l) :
    alGet l k = some v := by
  induction l with
  | nil => cases hm
  | cons hd tl ih =>
    rcases List.pairwise_cons.mp hs with ⟨hhd, htl⟩
    rcases List.mem_cons.mp hm with h1 | h2
    · subst h1
      unfold alGet
      rw [List.find?_cons_of_pos _ (by simp)]
      rfl
    · have hk : ¬ hd.1 = k := by
        intro he
        have := hhd _ h2
        simp at this
        omega
      unfold alGet
      rw [List.find?_cons_of_neg _ (by simpa using hk)]
      exact ih htl h2

/-- C7 (amended): over its key-sorted `BTreeMap` store, `Fifo::evict`
returns the SMALLEST-INDEXED evictable key — not the earliest-inserted one —
skipping non-evictable entries without removing them; it returns `none` when
no entry is evictable, and removes exactly the returned key. -/
theorem c7_fifo_evicts_minimal_key (f : Fifo) (hs : FifoSorted f) :
    ((f.evict).1 = none →
      (∀ p ∈ f.store, p.2 = false) ∧ (f.evict).2 = f) ∧
    (∀ k0, (f.evict).1 = some k0 →
      alGet f.store k0 = some true ∧
      (∀ p ∈ f.store, p.2 = true → k0 ≤ p.1) ∧
      (f.evict).2.store = f.store.filter (fun p => ¬ p.1 = k0)) := by
  rcases fifo_find_min f.store hs with ⟨hn, hsome⟩
  unfold Fifo.evict
  cases hres : f.store.find? (fun p => p.2) with
  | none =>
    refine ⟨?_, ?_⟩
    · intro _
      exact ⟨hn hres, rfl⟩
    · intro k0 h
      cases h
  | some kv =>
    obtain ⟨k, v⟩ := kv
    rcases hsome k v hres with ⟨hv, hmem, hmin⟩
    refine ⟨?_, ?_⟩
    · intro h
      cases h
    · intro k0 h
      injection h with h
      subst h
      exact ⟨alGet_of_mem_sorted _ _ _ hs hmem, hmin, rfl⟩

/-- C7 witness for the amended statement: in the sorted store
`[(0, false), (2, true), (5, true)]` eviction returns key 2. -/
theorem c7_minimal_key_witness :
    ((Fifo.mk [(0, false), (2, true), (5, true)] 2).evict.1 = none →
      (∀ p ∈ (Fifo.mk [(0, false), (2, true), (5, true)] 2).store,
        p.2 = false) ∧
      (Fifo.mk [(0, false), (2, true), (5, true)] 2).evict.2 =
        Fifo.mk [(0, false), (2, true), (5, true)] 2) ∧
    (∀ k0, (Fifo.mk [(0, false), (2, true), (5, true)] 2).evict.1 = some k0 →
      alGet (Fifo.mk [(0, false), (2, true), (5, true)] 2).store k0 =
        some true ∧
      (∀ p ∈ (Fifo.mk [(0, false), (2, true), (5, true)] 2).store,
        p.2 = true → k0 ≤ p.1) ∧
      (Fifo.mk [(0, false), (2, true), (5, true)] 2).evict.2.store =
        (Fifo.mk [(0, false), (2, true), (5, true)] 2).store.filter
          (fun p => ¬ p.1 = k0)) :=
  c7_fifo_evicts_minimal_key (Fifo.mk [(0, false), (2, true), (5, true)] 2)
    (by unfold FifoSorted; decide)

/-! ### C8 — LRU-K eviction -/

/-- The selection loop of `LruK::evict` computes a maximal evictable
candidate in the `betterCand` order, given that every evictable candidate
has positive distance (true of reachable states, where the accumulator's
initial `(0, usize::MAX)` is beaten by every candidate). -/
theorem lruk_evictLoop_spec (ts k : Nat) (l : List (Nat × LruKNode)) :
    ∀ (md ets : Nat) (key : Option Nat),
    (key = none → md = 0 ∧ ets = USIZE_MAX) →
    (∀ p ∈ l, p.2.is_evictable → 0 < p.2.backward_k_distance ts k) →
    let res := LruK.evictLoop ts k l md ets key
    (res.2.2 = none → key = none ∧ ∀ p ∈ l, ¬ p.2.is_evictable) ∧
    (∀ k0, res.2.2 = some k0 →
      ((key = some k0 ∧ res.1 = md ∧ res.2.1 = ets) ∨
        (∃ n0, (k0, n0) ∈ l ∧ n0.is_evictable ∧
          res.1 = n0.backward_k_distance ts k ∧
          res.2.1 = n0.least_recent_timestamp)) ∧
      (∀ p ∈ l, p.2.is_evictable →
        ¬ betterCand (p.2.backward_k_distance ts k) (p.2.least_recent_timestamp)
          res.1 res.2.1) ∧
      ¬ betterCand md ets res.1 res.2.1) := by
  induction l with
  | nil =>
    intro md ets key hkey _
    dsimp only [LruK.evictLoop]
    refine ⟨?_, ?_⟩
    · intro h
      exact ⟨h, by intro p hp; cases hp⟩
    · intro k0 h
      refine ⟨Or.inl ⟨h, rfl, rfl⟩, (by intro p hp; cases hp), ?_⟩
      unfold betterCand
      omega
  | cons hd tl ih =>
    intro md ets key hkey hsane
    obtain ⟨kk, node⟩ := hd
    by_cases hev : node.is_evictable
    · have hdist : 0 < node.backward_k_distance ts k :=
        hsane (kk, node) (List.mem_cons_self _ _) hev
      simp only [LruK.evictLoop, hev, if_pos]
      by_cases hlt : node.backward_k_distance ts k < md
      · simp only [if_pos hlt]
        have hkey2 : key = none → md = 0 ∧ ets = USIZE_MAX := hkey
        rcases ih md ets key hkey
            (fun p hp he => hsane p (List.mem_cons_of_mem _ hp) he)
          with ⟨ihn, ihs⟩
        refine ⟨?_, ?_⟩
        · intro h
          rcases ihn h with ⟨hk0, htl⟩
          rcases hkey2 hk0 with ⟨hmd, _⟩
          omega
        · intro k0 h
          rcases ihs k0 h with ⟨hmem, hmax, hacc⟩
          refine ⟨?_, ?_, hacc⟩
          · rcases hmem with h1 | ⟨n0, hn0, he0, hd0, ht0⟩
            · exact Or.inl h1
            · exact Or.inr ⟨n0, List.mem_cons_of_mem _ hn0, he0, hd0, ht0⟩
          · intro p hp he
            rcases List.mem_cons.mp hp with h1 | h2
            · subst h1
              show ¬ betterCand (node.backward_k_distance ts k)
                node.least_recent_timestamp _ _
              unfold betterCand at hacc ⊢
              omega
            · exact hmax p h2 he
      · simp only [if_neg hlt]
        by_cases hupd : node.backward_k_distance ts k > md ∨
            (node.backward_k_distance ts k = md ∧
              node.least_recent_timestamp < ets)
        · simp only [if_pos hupd]
          rcases ih (node.backward_k_distance ts k) node.least_recent_timestamp
              (some kk) (by intro h; cases h)
              (fun p hp he => hsane p (List.mem_cons_of_mem _ hp) he)
            with ⟨ihn, ihs⟩
          refine ⟨?_, ?_⟩
          · intro h
            rcases ihn h with ⟨hk0, _⟩
            cases hk0
          · intro k0 h
            rcases ihs k0 h with ⟨hmem, hmax, hacc⟩
            refine ⟨?_, ?_, ?_⟩
            · rcases hmem with ⟨h1, h2, h3⟩ | ⟨n0, hn0, he0, hd0, ht0⟩
              · injection h1 with h1
                subst h1
                exact Or.inr ⟨node, List.mem_cons_self _ _, hev, h2, h3⟩
              · exact Or.inr ⟨n0, List.mem_cons_of_mem _ hn0, he0, hd0, ht0⟩
            · intro p hp he
              rcases List.mem_cons.mp hp with h1 | h2
              · subst h1
                exact hacc
              · exact hmax p h2 he
            · unfold betterCand at hacc ⊢
              omega
        · simp only [if_neg hupd]
          rcases ih md ets key hkey
              (fun p hp he => hsane p (List.mem_cons_of_mem _ hp) he)
            with ⟨ihn, ihs⟩
          refine ⟨?_, ?_⟩
          · intro h
            rcases ihn h with ⟨hk0, _⟩
            rcases hkey hk0 with ⟨hmd, hets⟩
            omega
          · intro k0 h
            rcases ihs k0 h with ⟨hmem, hmax, hacc⟩
            refine ⟨?_, ?_, hacc⟩
            · rcases hmem with h1 | ⟨n0, hn0, he0, hd0, ht0⟩
              · exact Or.inl h1
              · exact Or.inr ⟨n0, List.mem_cons_of_mem _ hn0, he0, hd0, ht0⟩
            · intro p hp he
              rcases List.mem_cons.mp hp with h1 | h2
              · subst h1
                show ¬ betterCand (node.backward_k_distance ts k)
                  node.least_recent_timestamp _ _
                unfold betterCand at hacc ⊢
                omega
              · exact hmax p h2 he
    · simp only [LruK.evictLoop, hev, if_neg, Bool.false_eq_true, not_false_iff]
      rcases ih md ets key hkey
          (fun p hp he => hsane p (List.mem_cons_of_mem _ hp) he)
        with ⟨ihn, ihs⟩
      refine ⟨?_, ?_⟩
      · intro h
        rcases ihn h with ⟨hk0, htl⟩
        refine ⟨hk0, ?_⟩
        intro p hp
        rcases List.mem_cons.mp hp with h1 | h2
        · subst h1; simpa using hev
        · exact htl p h2
      · intro k0 h
        rcases ihs k0 h with ⟨hmem, hmax, hacc⟩
        refine ⟨?_, ?_, hacc⟩
        · rcases hmem with h1 | ⟨n0, hn0, he0, hd0, ht0⟩
          · exact Or.inl h1
          · exact Or.inr ⟨n0, List.mem_cons_of_mem _ hn0, he0, hd0, ht0⟩
        · intro p hp he
          rcases List.mem_cons.mp hp with h1 | h2
          · subst h1; simp [hev] at he
          · exact hmax p h2 he

/-- C8: in every sane LRU-K state (k = 2; reachable states are sane —
every evictable node has a nonempty history whose timestamps are past clock
values), `evict()` returns an evictable entry whose backward-k-distance is
maximal among evictable entries — entries with fewer than k accesses
carrying the infinite (usize::MAX) distance — with ties, including among
multiple infinite-distance entries, broken by the smallest oldest recorded
timestamp; the chosen entry is removed, and `none` is returned exactly when
no entry is evictable. -/
theorem c8_lruk_evicts_max_backward_k_distance
    (s : LruK) (hk : s.k = 2) (hsane : LruKSane s) :
    ((s.evict).1 = none →
      (∀ p ∈ s.store, ¬ p.2.is_evictable) ∧ (s.evict).2 = s) ∧
    (∀ k0, (s.evict).1 = some k0 →
      (∃ n0, (k0, n0) ∈ s.store ∧ n0.is_evictable ∧
        ∀ p ∈ s.store, p.2.is_evictable →
          p.2.backward_k_distance s.current_ts s.k <
            n0.backward_k_distance s.current_ts s.k ∨
          (p.2.backward_k_distance s.current_ts s.k =
              n0.backward_k_distance s.current_ts s.k ∧
            n0.least_recent_timestamp ≤ p.2.least_recent_timestamp)) ∧
      (s.evict).2.store = s.store.filter (fun p => ¬ p.1 = k0)) := by
  have hplift : ∀ p ∈ s.store, p.2.is_evictable →
      0 < p.2.backward_k_distance s.current_ts s.k := by
    intro p hp he
    rcases hsane p hp he with ⟨hne, hlt⟩
    unfold LruKNode.backward_k_distance
    by_cases hl : p.2.history.length < s.k
    · simp only [hl, if_pos]
      unfold USIZE_MAX
      norm_num
    · have h2 := hlt (by omega)
      simp only [hl, if_neg, not_false_iff]
      omega
  rcases lruk_evictLoop_spec s.current_ts s.k s.store 0 USIZE_MAX none
      (fun _ => ⟨rfl, rfl⟩) hplift with ⟨hn, hs2⟩
  unfold LruK.evict
  cases hres : (LruK.evictLoop s.current_ts s.k s.store 0 USIZE_MAX none).2.2 with
  | none =>
    rcases hn hres with ⟨_, hnone⟩
    refine ⟨?_, ?_⟩
    · intro _
      exact ⟨hnone, rfl⟩
    · intro k0 h
      cases h
  | some kk =>
    rcases hs2 kk hres with ⟨hmem, hmax, _⟩
    refine ⟨?_, ?_⟩
    · intro h
      cases h
    · intro k0 h
      injection h with h
      subst h
      rcases hmem with ⟨h1, _, _⟩ | ⟨n0, hn0, he0, hd0, ht0⟩
      · cases h1
      · refine ⟨⟨n0, hn0, he0, ?_⟩, rfl⟩
        intro p hp he
        have hb := hmax p hp he
        unfold betterCand at hb
        rw [hd0, ht0] at hb
        omega

/-- C8 witness: the state after accesses 1, 2, 1 (timestamps 1..3, clock 4
after a fourth access elsewhere), keys 1 and 2 evictable. -/
theorem c8_lruk_witness :
    (((LruK.mk [(1, ⟨true, [1, 3]⟩), (2, ⟨true, [2]⟩)] 2 4 2).evict).1 =
        none →
      (∀ p ∈ (LruK.mk [(1, ⟨true, [1, 3]⟩), (2, ⟨true, [2]⟩)] 2 4 2).store,
        ¬ p.2.is_evictable) ∧
      ((LruK.mk [(1, ⟨true, [1, 3]⟩), (2, ⟨true, [2]⟩)] 2 4 2).evict).2 =
        LruK.mk [(1, ⟨true, [1, 3]⟩), (2, ⟨true, [2]⟩)] 2 4 2) ∧
    (∀ k0,
      ((LruK.mk [(1, ⟨true, [1, 3]⟩), (2, ⟨true, [2]⟩)] 2 4 2).evict).1 =
          some k0 →
      (∃ n0,
        (k0, n0) ∈ (LruK.mk [(1, ⟨true, [1, 3]⟩), (2, ⟨true, [2]⟩)] 2 4 2).store ∧
        n0.is_evictable ∧
        ∀ p ∈ (LruK.mk [(1, ⟨true, [1, 3]⟩), (2, ⟨true, [2]⟩)] 2 4 2).store,
          p.2.is_evictable →
          p.2.backward_k_distance 4 2 < n0.backward_k_distance 4 2 ∨
          (p.2.backward_k_distance 4 2 = n0.backward_k_distance 4 2 ∧
            n0.least_recent_timestamp ≤ p.2.least_recent_timestamp)) ∧
      ((LruK.mk [(1, ⟨true, [1, 3]⟩), (2, ⟨true, [2]⟩)] 2 4 2).evict).2.store =
        (LruK.mk [(1, ⟨true, [1, 3]⟩), (2, ⟨true, [2]⟩)] 2 4 2).store.filter
          (fun p => ¬ p.1 = k0)) :=
  c8_lruk_evicts_max_backward_k_distance
    (LruK.mk [(1, ⟨true, [1, 3]⟩), (2, ⟨true, [2]⟩)] 2 4 2) rfl
    (by unfold LruKSane; decide)

/-! ### C4 — pool invariant infrastructure -/

theorem alGet_none_iff {α β : Type} [DecidableEq α] (l : List (α × β)) (k : α) :
    alGet l k = none ↔ ∀ p ∈ l, ¬ p.1 = k := by
  unfold alGet
  rw [Option.map_eq_none', List.find?_eq_none]
  constructor
  · intro h p hp
    have := h p hp
    simpa using this
  · intro h p hp
    simpa using h p hp

theorem alGet_mem {α β : Type} [DecidableEq α] {l : List (α × β)} {k : α}
    {v : β} (h : alGet l k = some v) : (k, v) ∈ l := by
  unfold alGet at h
  rw [Option.map_eq_some'] at h
  rcases h with ⟨p, hp, hv⟩
  have hm := List.mem_of_find?_eq_some hp
  have hk := List.find?_some hp
  have hk1 : p.1 = k := by simpa using hk
  have : p = (k, v) := by
    cases p
    simp only at hk1 hv
    rw [hk1, hv]
  rw [← this]
  exact hm

theorem alPut_of_absent {α β : Type} [DecidableEq α] {l : List (α × β)}
    {k : α} (v : β) (h : alGet l k = none) : alPut l k v = (k, v) :: l := by
  unfold alGet at h
  rw [Option.map_eq_none'] at h
  unfold alPut
  rw [h]
  rfl

theorem mem_alPut {α β : Type} [DecidableEq α] {l : List (α × β)} {k : α}
    {v : β} {p : α × β} (h : p ∈ alPut l k v) :
    (p ∈ l ∧ ¬ p.1 = k) ∨ p = (k, v) := by
  unfold alPut at h
  by_cases hf : (l.find? fun q => q.1 = k).isSome
  · rw [if_pos hf] at h
    rcases List.mem_map.mp h with ⟨q, hq, he⟩
    by_cases hqk : q.1 = k
    · right
      rw [if_pos hqk] at he
      exact he.symm
    · left
      rw [if_neg hqk] at he
      rw [← he]
      exact ⟨hq, hqk⟩
  · rw [if_neg hf] at h
    rcases List.mem_cons.mp h with h1 | h2
    · exact Or.inr h1
    · left
      refine ⟨h2, ?_⟩
      have hnone : l.find? (fun q => q.1 = k) = none :=
        Option.not_isSome_iff_eq_none.mp hf
      rw [List.find?_eq_none] at hnone
      simpa using hnone p h2

theorem pairwise_alPut {α β : Type} [DecidableEq α]
    {P : (α × β) → (α × β) → Prop} {l : List (α × β)} (k : α) (v : β)
    (h : l.Pairwise P)
    (hcompat : ∀ p ∈ l, ¬ p.1 = k → P p (k, v) ∧ P (k, v) p)
    (hkey : ∀ p q : α × β, p.1 = k → q.1 = k → P p q → False) :
    (alPut l k v).Pairwise P := by
  unfold alPut
  by_cases hf : (l.find? fun q => q.1 = k).isSome
  · rw [if_pos hf]
    rw [List.pairwise_map]
    refine h.imp_of_mem ?_
    intro p q hp hq hpq
    by_cases hpk : p.1 = k <;> by_cases hqk : q.1 = k
    · exact absurd hpq (by intro hc; exact hkey p q hpk hqk hc)
    · rw [if_pos hpk, if_neg hqk]
      exact (hcompat q hq hqk).2
    · rw [if_neg hpk, if_pos hqk]
      exact (hcompat p hp hpk).1
    · rw [if_neg hpk, if_neg hqk]
      exact hpq
  · rw [if_neg hf]
    refine List.Pairwise.cons ?_ h
    intro p hp
    have hpk : ¬ p.1 = k := by
      have hnone : l.find? (fun q => q.1 = k) = none :=
        Option.not_isSome_iff_eq_none.mp hf
      rw [List.find?_eq_none] at hnone
      simpa using hnone p hp
    exact (hcompat p hp hpk).2

theorem btreePut_sorted {l : List (Nat × Bool)} (k : Nat) (v : Bool)
    (h : l.Pairwise (fun p q => p.1 < q.1)) :
    (btreePut l k v).1.Pairwise (fun p q => p.1 < q.1) := by
  induction l with
  | nil => simp [btreePut]
  | cons hd tl ih =>
    rcases List.pairwise_cons.mp h with ⟨hhd, htl⟩
    unfold btreePut
    by_cases h1 : k < hd.1
    · obtain ⟨k', v'⟩ := hd
      simp only [if_pos h1]
      refine List.Pairwise.cons ?_ h
      intro q hq
      rcases List.mem_cons.mp hq with he | hm
      · rw [he]; exact h1
      · exact lt_trans h1 (hhd q hm)
    · obtain ⟨k', v'⟩ := hd
      simp only [if_neg h1]
      by_cases h2 : k = k'
      · simp only [if_pos h2]
        refine List.Pairwise.cons ?_ htl
        intro q hq
        simp only
        rw [h2]
        exact hhd q hq
      · simp only [if_neg h2]
        refine List.Pairwise.cons ?_ (ih htl)
        intro q hq
        have hmem := btreePut_mem_aux hq
        rcases hmem with ⟨hm, _⟩ | he
        · exact hhd q hm
        · rw [he]
          simp only at h1 h2 ⊢
          omega
where
  btreePut_mem_aux {tl : List (Nat × Bool)} {q : Nat × Bool} (hq : q ∈ (btreePut tl k v).1) :
      (q ∈ tl ∧ True) ∨ q = (k, v) := by
    induction tl with
    | nil =>
      simp [btreePut] at hq
      exact Or.inr (by cases q; simp at hq; rw [hq.1, hq.2])
    | cons hd2 tl2 ih2 =>
      unfold btreePut at hq
      by_cases ha : k < hd2.1
      · obtain ⟨a, b⟩ := hd2
        simp only [if_pos ha] at hq
        rcases List.mem_cons.mp hq with h1 | h2
        · exact Or.inr h1
        · exact Or.inl ⟨h2, trivial⟩
      · obtain ⟨a, b⟩ := hd2
        simp only [if_neg ha] at hq
        by_cases hb : k = a
        · simp only [if_pos hb] at hq
          rcases List.mem_cons.mp hq with h1 | h2
          · exact Or.inr (by rw [h1, hb])
          · exact Or.inl ⟨List.mem_cons_of_mem _ h2, trivial⟩
        · simp only [if_neg hb] at hq
          rcases List.mem_cons.mp hq with h1 | h2
          · exact Or.inl ⟨by rw [h1]; exact List.mem_cons_self _ _, trivial⟩
          · rcases ih2 h2 with ⟨hm, _⟩ | he
            · exact Or.inl ⟨List.mem_cons_of_mem _ hm, trivial⟩
            · exact Or.inr he

theorem mem_btreePut_sorted {l : List (Nat × Bool)} {k : Nat} {v : Bool}
    {p : Nat × Bool} (hs : l.Pairwise (fun p q => p.1 < q.1))
    (hp : p ∈ (btreePut l k v).1) :
    (p ∈ l ∧ ¬ p.1 = k) ∨ p = (k, v) := by
  induction l with
  | nil =>
    simp [btreePut] at hp
    exact Or.inr (by cases p; simp at hp; rw [hp.1, hp.2])
  | cons hd tl ih =>
    rcases List.pairwise_cons.mp hs with ⟨hhd, htl⟩
    unfold btreePut at hp
    by_cases h1 : k < hd.1
    · obtain ⟨a, b⟩ := hd
      simp only [if_pos h1] at hp
      rcases List.mem_cons.mp hp with he | hm
      · exact Or.inr he
      · left
        refine ⟨hm, ?_⟩
        rcases List.mem_cons.mp hm with he2 | hm2
        · rw [he2]; simp only at h1 ⊢; omega
        · have := hhd p hm2
          simp only at h1 this ⊢
          omega
    · obtain ⟨a, b⟩ := hd
      simp only [if_neg h1] at hp
      by_cases h2 : k = a
      · simp only [if_pos h2] at hp
        rcases List.mem_cons.mp hp with he | hm
        · exact Or.inr (by rw [he, h2])
        · left
          refine ⟨List.mem_cons_of_mem _ hm, ?_⟩
          have := hhd p hm
          simp only at this ⊢
          omega
      · simp only [if_neg h2] at hp
        rcases List.mem_cons.mp hp with he | hm
        · left
          refine ⟨by rw [he]; exact List.mem_cons_self _ _, ?_⟩
          rw [he]
          simp only
          omega
        · rcases ih htl hm with ⟨hm2, hk2⟩ | he2
          · exact Or.inl ⟨List.mem_cons_of_mem _ hm2, hk2⟩
          · exact Or.inr he2

/-- Membership in the FIFO replacer's evictable-key list. -/
theorem fifo_evKeys {f : Fifo} {e : Nat} :
    e ∈ (Repl.fifo f).evictableKeys ↔ (e, true) ∈ f.store := by
  unfold Repl.evictableKeys
  constructor
  · intro h
    rcases List.mem_map.mp h with ⟨p, hp, he⟩
    rcases List.mem_filter.mp hp with ⟨hm, hv⟩
    have hpe : p = (e, true) := by
      cases p
      simp only at he hv
      rw [he, hv]
    rw [← hpe]
    exact hm
  · intro h
    exact List.mem_map.mpr ⟨(e, true), List.mem_filter.mpr ⟨h, rfl⟩, rfl⟩

/-- Membership in the LRU-K replacer's evictable-key list. -/
theorem lruk_evKeys {s : LruK} {e : Nat} :
    e ∈ (Repl.lruk s).evictableKeys ↔
      ∃ n : LruKNode, (e, n) ∈ s.store ∧ n.is_evictable := by
  unfold Repl.evictableKeys
  constructor
  · intro h
    rcases List.mem_map.mp h with ⟨p, hp, he⟩
    rcases List.mem_filter.mp hp with ⟨hm, hv⟩
    refine ⟨p.2, ?_, hv⟩
    have hpe : p = (e, p.2) := by
      cases p
      simp only at he ⊢
      rw [he]
    rw [← hpe]
    exact hm
  · intro ⟨n, hm, hv⟩
    exact List.mem_map.mpr ⟨(e, n), List.mem_filter.mpr ⟨hm, hv⟩, rfl⟩

/-- The `LruK::evict` loop only ever selects evictable entries of the
store (no sanity assumptions needed). -/
theorem lruk_evictLoop_some_mem (ts k : Nat) (l : List (Nat × LruKNode)) :
    ∀ (md ets : Nat) (key : Option Nat) (k0 : Nat),
    (LruK.evictLoop ts k l md ets key).2.2 = some k0 →
    key = some k0 ∨ ∃ n : LruKNode, (k0, n) ∈ l ∧ n.is_evictable := by
  induction l with
  | nil =>
    intro md ets key k0 h
    exact Or.inl h
  | cons hd tl ih =>
    intro md ets key k0 h
    obtain ⟨kk, node⟩ := hd
    by_cases hev : node.is_evictable
    · simp only [LruK.evictLoop, hev, if_pos] at h
      by_cases hlt : node.backward_k_distance ts k < md
      · rw [if_pos hlt] at h
        rcases ih md ets key k0 h with h1 | ⟨n, hn, he⟩
        · exact Or.inl h1
        · exact Or.inr ⟨n, List.mem_cons_of_mem _ hn, he⟩
      · rw [if_neg hlt] at h
        by_cases hupd : node.backward_k_distance ts k > md ∨
            (node.backward_k_distance ts k = md ∧
              node.least_recent_timestamp < ets)
        · rw [if_pos hupd] at h
          rcases ih _ _ _ k0 h with h1 | ⟨n, hn, he⟩
          · injection h1 with h1
            subst h1
            exact Or.inr ⟨node, List.mem_cons_self _ _, hev⟩
          · exact Or.inr ⟨n, List.mem_cons_of_mem _ hn, he⟩
        · rw [if_neg hupd] at h
          rcases ih md ets key k0 h with h1 | ⟨n, hn, he⟩
          · exact Or.inl h1
          · exact Or.inr ⟨n, List.mem_cons_of_mem _ hn, he⟩
    · simp only [LruK.evictLoop, hev, if_neg, Bool.false_eq_true,
        not_false_iff] at h
      rcases ih md ets key k0 h with h1 | ⟨n, hn, he⟩
      · exact Or.inl h1
      · exact Or.inr ⟨n, List.mem_cons_of_mem _ hn, he⟩

/-- `record_access` never creates an evictable entry and clears the
accessed key's flag. -/
theorem repl_record_access_evictable {r : Repl} {k e : Nat}
    (hwf : ReplWF r) (h : e ∈ (r.record_access k).evictableKeys) :
    e ∈ r.evictableKeys ∧ e ≠ k := by
  cases r with
  | fifo f =>
    have hs : FifoSorted f := hwf
    unfold Repl.record_access at h
    rw [fifo_evKeys] at h
    unfold Fifo.record_access at h
    simp only at h
    rcases mem_btreePut_sorted hs h with ⟨hm, he⟩ | heq
    · exact ⟨fifo_evKeys.mpr hm, by simpa using he⟩
    · cases heq
  | lruk s =>
    unfold Repl.record_access at h
    rw [lruk_evKeys] at h
    rcases h with ⟨n, hm, hv⟩
    unfold LruK.record_access at hm
    simp only at hm
    rcases mem_alPut hm with ⟨hm2, hk2⟩ | heq
    · exact ⟨lruk_evKeys.mpr ⟨n, hm2, hv⟩, by simpa using hk2⟩
    · exfalso
      have : n = ⟨false, _⟩ := congrArg Prod.snd heq
      rw [this] at hv
      cases hv

/-- `set_evictable` can only add the given key to the evictable set (and
only when the flag is `true`). -/
theorem repl_set_evictable_evictable {r : Repl} {k e : Nat} {b : Bool}
    (hwf : ReplWF r) (h : e ∈ (r.set_evictable k b).evictableKeys) :
    e ∈ r.evictableKeys ∨ (b = true ∧ e = k) := by
  cases r with
  | fifo f =>
    have hs : FifoSorted f := hwf
    unfold Repl.set_evictable at h
    rw [fifo_evKeys] at h
    unfold Fifo.set_evictable at h
    cases hg : alGet f.store k with
    | none =>
      rw [hg] at h
      exact Or.inl (fifo_evKeys.mpr h)
    | some old =>
      rw [hg] at h
      simp only at h
      rcases mem_btreePut_sorted hs h with ⟨hm, _⟩ | heq
      · exact Or.inl (fifo_evKeys.mpr hm)
      · right
        have h1 : e = k := congrArg Prod.fst heq
        have h2 : true = b := congrArg Prod.snd heq
        exact ⟨h2.symm, h1⟩
  | lruk s =>
    unfold Repl.set_evictable at h
    rw [lruk_evKeys] at h
    rcases h with ⟨n, hm, hv⟩
    unfold LruK.set_evictable at hm
    cases hg : alGet s.store k with
    | none =>
      rw [hg] at hm
      exact Or.inl (lruk_evKeys.mpr ⟨n, hm, hv⟩)
    | some node =>
      rw [hg] at hm
      simp only at hm
      rcases mem_alPut hm with ⟨hm2, _⟩ | heq
      · exact Or.inl (lruk_evKeys.mpr ⟨n, hm2, hv⟩)
      · right
        have h1 : e = k := congrArg Prod.fst heq
        have h2 : n = { node with is_evictable := b } :=
          congrArg Prod.snd heq
        rw [h2] at hv
        exact ⟨hv, h1⟩

/-- A successful `evict` returns a key that was evictable. -/
theorem repl_evict_some_evictable {r : Repl} {k0 : Nat}
    (h : (r.evict).1 = some k0) : k0 ∈ r.evictableKeys := by
  cases r with
  | fifo f =>
    simp only [Repl.evict, Fifo.evict] at h
    cases hf : f.store.find? (fun p => p.2) with
    | none => rw [hf] at h; cases h
    | some kv =>
      rw [hf] at h
      obtain ⟨kk, v⟩ := kv
      simp only at h
      injection h with h
      subst h
      have hv := List.find?_some hf
      have hm := List.mem_of_find?_eq_some hf
      rw [fifo_evKeys]
      have hvt : v = true := by simpa using hv
      rw [← hvt]
      exact hm
  | lruk s =>
    simp only [Repl.evict, LruK.evict] at h
    cases hl : (LruK.evictLoop s.current_ts s.k s.store 0 USIZE_MAX none).2.2 with
    | none => rw [hl] at h; cases h
    | some kk =>
      rw [hl] at h
      simp only at h
      injection h with h
      rcases lruk_evictLoop_some_mem s.current_ts s.k s.store 0 USIZE_MAX
          none kk hl with h1 | ⟨n, hn, he⟩
      · cases h1
      · rw [← h]
        exact lruk_evKeys.mpr ⟨n, hn, he⟩

/-- Eviction only removes entries: the surviving evictable keys were
evictable before. -/
theorem repl_evict_subset_evictable {r : Repl} {e : Nat}
    (h : e ∈ (r.evict).2.evictableKeys) : e ∈ r.evictableKeys := by
  cases r with
  | fifo f =>
    simp only [Repl.evict, Fifo.evict] at h
    cases hf : f.store.find? (fun p => p.2) with
    | none => rw [hf] at h; exact h
    | some kv =>
      rw [hf] at h
      obtain ⟨kk, v⟩ := kv
      simp only at h
      rw [fifo_evKeys] at h ⊢
      exact (List.mem_filter.mp h).1
  | lruk s =>
    simp only [Repl.evict, LruK.evict] at h
    cases hl : (LruK.evictLoop s.current_ts s.k s.store 0 USIZE_MAX none).2.2 with
    | none => rw [hl] at h; exact h
    | some kk =>
      rw [hl] at h
      simp only at h
      rw [lruk_evKeys] at h ⊢
      rcases h with ⟨n, hm, hv⟩
      exact ⟨n, (List.mem_filter.mp hm).1, hv⟩

/-- A failed `evict` leaves the replacer untouched. -/
theorem repl_evict_none {r : Repl} (h : (r.evict).1 = none) :
    (r.evict).2 = r := by
  cases r with
  | fifo f =>
    simp only [Repl.evict, Fifo.evict] at h ⊢
    cases hf : f.store.find? (fun p => p.2) with
    | none => rfl
    | some kv => obtain ⟨kk, v⟩ := kv; rw [hf] at h; simp at h
  | lruk s =>
    simp only [Repl.evict, LruK.evict] at h ⊢
    cases hl : (LruK.evictLoop s.current_ts s.k s.store 0 USIZE_MAX none).2.2 with
    | none => rfl
    | some kk => rw [hl] at h; simp at h

/-- All three replacer operations preserve structural well-formedness. -/
theorem replWF_record_access {r : Repl} (k : Nat) (hwf : ReplWF r) :
    ReplWF (r.record_access k) := by
  cases r with
  | fifo f => exact btreePut_sorted k false hwf
  | lruk s => trivial

theorem replWF_set_evictable {r : Repl} (k : Nat) (b : Bool)
    (hwf : ReplWF r) : ReplWF (r.set_evictable k b) := by
  cases r with
  | fifo f =>
    have hs : FifoSorted f := hwf
    simp only [Repl.set_evictable, Fifo.set_evictable]
    cases hg : alGet f.store k with
    | none => exact hs
    | some old =>
      show FifoSorted _
      exact btreePut_sorted k b hs
  | lruk s => trivial

theorem replWF_evict {r : Repl} (hwf : ReplWF r) : ReplWF (r.evict).2 := by
  cases r with
  | fifo f =>
    have hs : FifoSorted f := hwf
    simp only [Repl.evict, Fifo.evict]
    cases hf : f.store.find? (fun p => p.2) with
    | none => exact hs
    | some kv =>
      obtain ⟨kk, v⟩ := kv
      show FifoSorted _
      unfold FifoSorted
      exact List.Pairwise.sublist (List.filter_sublist _) hs
  | lruk s => trivial

theorem tableDisj_symm : Symmetric TableDisj := by
  intro p q h
  exact ⟨h.1.symm, h.2.symm⟩

/-- Distinct-key entries of a disjoint table have distinct frames. -/
theorem tableDisj_of_mem {l : List (BlockId × BufferMeta)}
    (h : l.Pairwise TableDisj) {p q : BlockId × BufferMeta}
    (hp : p ∈ l) (hq : q ∈ l) (hne : ¬ p.1 = q.1) : TableDisj p q :=
  List.Pairwise.forall tableDisj_symm h hp hq
    (by intro he; rw [he] at hne; exact hne rfl)

/-- `BufferManagerInner::unpin` preserves the pool invariant. -/
theorem poolInv_unpin (s : BMState) (b : BlockId) (hinv : PoolInv s) :
    PoolInv (s.unpin b) := by
  obtain ⟨hpw, hnd, hfree, hev, hwf⟩ := hinv
  unfold BMState.unpin
  cases halG : alGet s.buf_table b with
  | none => exact ⟨hpw, hnd, hfree, hev, hwf⟩
  | some m =>
    have hmem : (b, m) ∈ s.buf_table := alGet_mem halG
    simp only
    by_cases hpins : m.pins - 1 > 0
    · rw [if_pos hpins]
      refine ⟨?_, hnd, ?_, ?_, hwf⟩
      · refine pairwise_alPut b { m with pins := m.pins - 1 } hpw ?_ ?_
        · intro p hp hpk
          have hd := tableDisj_of_mem hpw hp hmem hpk
          exact ⟨⟨hd.1, hd.2⟩, ⟨fun he => hd.1 he.symm, fun he => hd.2 he.symm⟩⟩
        · intro p q hpk hqk hd
          exact hd.1 (hpk.trans hqk.symm)
      · intro q hq
        rcases mem_alPut hq with ⟨hq2, _⟩ | he
        · exact hfree q hq2
        · rw [he]
          exact hfree (b, m) hmem
      · intro e he
        rcases hev e he with ⟨hpos, hfr⟩
        refine ⟨?_, hfr⟩
        intro q hq
        rcases mem_alPut hq with ⟨hq2, _⟩ | heq
        · exact hpos q hq2
        · rw [heq]
          exact hpos (b, m) hmem
    · rw [if_neg hpins]
      refine ⟨?_, hnd, ?_, ?_, replWF_set_evictable m.pos true hwf⟩
      · exact List.Pairwise.sublist (List.filter_sublist _) hpw
      · intro q hq
        exact hfree q (List.mem_of_mem_filter hq)
      · intro e he
        rcases repl_set_evictable_evictable hwf he with h1 | ⟨_, h2⟩
        · rcases hev e h1 with ⟨hpos, hfr⟩
          exact ⟨fun q hq => hpos q (List.mem_of_mem_filter hq), hfr⟩
        · subst h2
          refine ⟨?_, hfree (b, m) hmem⟩
          intro q hq
          rcases List.mem_filter.mp hq with ⟨hq2, hqk⟩
          have hqk2 : ¬ q.1 = b := by simpa using hqk
          have hd := tableDisj_of_mem hpw hq2 hmem hqk2
          exact fun he => hd.2 he.symm

/-- `BufferManagerInner::pin` preserves the pool invariant. -/
theorem poolInv_pin (s : BMState) (b : BlockId) (hinv : PoolInv s)
    (r : Option Nat) (s' : BMState) (hpin : s.pin b = Except.ok (r, s')) :
    PoolInv s' := by
  obtain ⟨hpw, hnd, hfree, hev, hwf⟩ := hinv
  simp only [BMState.pin] at hpin
  cases halG : alGet s.buf_table b with
  | some m =>
    -- resident block: bump the pin count, record the access
    rw [halG] at hpin
    simp only [halG, Option.map_some', Option.isNone_some, Bool.false_eq_true,
      if_neg, not_false_iff] at hpin
    cases hbuf : s.pool.get? m.pos with
    | none =>
      rw [hbuf] at hpin
      injection hpin with hpin
      injection hpin with _ hs
      rw [← hs]
      exact ⟨hpw, hnd, hfree, hev, hwf⟩
    | some buf =>
      rw [hbuf] at hpin
      simp only [bind, Except.bind] at hpin
      injection hpin with hpin
      injection hpin with _ hs
      rw [← hs]
      have hmem : (b, m) ∈ s.buf_table := alGet_mem halG
      refine ⟨?_, hnd, ?_, ?_, replWF_record_access m.pos hwf⟩
      · refine pairwise_alPut b { m with pins := m.pins + 1 } hpw ?_ ?_
        · intro p hp hpk
          have hd := tableDisj_of_mem hpw hp hmem hpk
          exact ⟨⟨hd.1, hd.2⟩, ⟨fun he => hd.1 he.symm, fun he => hd.2 he.symm⟩⟩
        · intro p q hpk hqk hd
          exact hd.1 (hpk.trans hqk.symm)
      · intro q hq
        rcases mem_alPut hq with ⟨hq2, _⟩ | he
        · exact hfree q hq2
        · rw [he]
          exact hfree (b, m) hmem
      · intro e he
        rcases repl_record_access_evictable hwf he with ⟨he2, hek⟩
        rcases hev e he2 with ⟨hpos, hfr⟩
        refine ⟨?_, hfr⟩
        intro q hq
        rcases mem_alPut hq with ⟨hq2, _⟩ | heq
        · exact hpos q hq2
        · rw [heq]
          exact hek
  | none =>
    rw [halG] at hpin
    simp only [Option.map_none', Option.isNone_none, if_pos] at hpin
    have hkeys : ∀ p ∈ s.buf_table, ¬ p.1 = b := (alGet_none_iff _ _).mp halG
    cases hlast : s.free_list.getLast? with
    | some pos =>
      -- frame from the free list
      rw [hlast] at hpin
      dsimp only at hpin
      have hposmem : pos ∈ s.free_list := List.mem_of_mem_getLast? hlast
      have hposdrop : pos ∉ s.free_list.dropLast := by
        intro hmem
        have hne : s.free_list ≠ [] := by
          intro he; rw [he] at hlast; cases hlast
        have happ := List.dropLast_append_getLast hne
        rw [List.getLast?_eq_getLast _ hne] at hlast
        injection hlast with hlast
        rw [← happ] at hnd
        rcases List.nodup_append.mp hnd with ⟨_, _, hdisj⟩
        exact hdisj hmem (by rw [hlast]; exact List.mem_singleton_self _)
      have hdropnd : s.free_list.dropLast.Nodup :=
        List.Nodup.sublist (List.dropLast_sublist _) hnd
      have hdropsub : ∀ x, x ∈ s.free_list.dropLast → x ∈ s.free_list :=
        fun x hx => (List.dropLast_sublist _).mem hx
      cases hbuf : s.pool.get? pos with
      | none =>
        rw [hbuf] at hpin
        dsimp only at hpin
        injection hpin with hpin
        injection hpin with _ hs
        rw [← hs]
        refine ⟨hpw, hdropnd, ?_, ?_, hwf⟩
        · intro q hq hmem
          exact hfree q hq (hdropsub _ hmem)
        · intro e he
          rcases hev e he with ⟨hpos2, hfr⟩
          exact ⟨hpos2, fun hmem => hfr (hdropsub _ hmem)⟩
      | some buf =>
        rw [hbuf] at hpin
        dsimp only at hpin
        cases hassign : buf.assign_to_block s.lm b with
        | error e =>
          rw [hassign] at hpin
          simp only [bind, Except.bind] at hpin
          cases hpin
        | ok res =>
          obtain ⟨lm', buf', evs⟩ := res
          rw [hassign] at hpin
          simp only [bind, Except.bind, halG] at hpin
          injection hpin with hpin
          injection hpin with _ hs
          rw [← hs]
          rw [alPut_of_absent _ halG]
          refine ⟨?_, hdropnd, ?_, ?_, replWF_record_access pos hwf⟩
          · refine List.Pairwise.cons ?_ hpw
            intro q hq
            exact ⟨fun he => hkeys q hq he.symm,
              fun he => hfree q hq (he ▸ hposmem)⟩
          · intro q hq
            rcases List.mem_cons.mp hq with he | hm
            · rw [he]
              exact hposdrop
            · intro hmem
              exact hfree q hm (hdropsub _ hmem)
          · intro e he
            rcases repl_record_access_evictable hwf he with ⟨he2, hek⟩
            rcases hev e he2 with ⟨hpos2, hfr⟩
            refine ⟨?_, fun hmem => hfr (hdropsub _ hmem)⟩
            intro q hq
            rcases List.mem_cons.mp hq with heq | hm
            · rw [heq]
              exact hek
            · exact hpos2 q hm
    | none =>
      -- no free frame: ask the replacer
      rw [hlast] at hpin
      dsimp only at hpin
      cases hre : (s.replacer.evict).1 with
      | none =>
        have hsame := repl_evict_none hre
        rw [hre, hsame] at hpin
        dsimp only at hpin
        injection hpin with hpin
        injection hpin with _ hs
        rw [← hs]
        exact ⟨hpw, hnd, hfree, hev, hwf⟩
      | some pos =>
        rw [hre] at hpin
        dsimp only at hpin
        have hposev : pos ∈ s.replacer.evictableKeys :=
          repl_evict_some_evictable hre
        rcases hev pos hposev with ⟨hposdis, hposfr⟩
        cases hbuf : s.pool.get? pos with
        | none =>
          rw [hbuf] at hpin
          dsimp only at hpin
          injection hpin with hpin
          injection hpin with _ hs
          rw [← hs]
          refine ⟨hpw, hnd, hfree, ?_, replWF_evict hwf⟩
          intro e he
          exact hev e (repl_evict_subset_evictable he)
        | some buf =>
          rw [hbuf] at hpin
          dsimp only at hpin
          cases hassign : buf.assign_to_block s.lm b with
          | error e =>
            rw [hassign] at hpin
            simp only [bind, Except.bind] at hpin
            cases hpin
          | ok res =>
            obtain ⟨lm', buf', evs⟩ := res
            rw [hassign] at hpin
            simp only [bind, Except.bind, halG] at hpin
            injection hpin with hpin
            injection hpin with _ hs
            rw [← hs]
            rw [alPut_of_absent _ halG]
            have hwf2 : ReplWF (s.replacer.evict).2 := replWF_evict hwf
            refine ⟨?_, hnd, ?_, ?_, replWF_record_access pos hwf2⟩
            · refine List.Pairwise.cons ?_ hpw
              intro q hq
              exact ⟨fun he => hkeys q hq he.symm,
                fun he => hposdis q hq he⟩
            · intro q hq
              rcases List.mem_cons.mp hq with he | hm
              · rw [he]
                exact hposfr
              · exact hfree q hm
            · intro e he
              rcases repl_record_access_evictable hwf2 he with ⟨he2, hek⟩
              rcases hev e (repl_evict_subset_evictable he2) with ⟨hpos2, hfr⟩
              refine ⟨?_, hfr⟩
              intro q hq
              rcases List.mem_cons.mp hq with heq | hm
              · rw [heq]
                exact hek
              · exact hpos2 q hm

/-- Any pin/unpin call sequence preserves the pool invariant. -/
theorem poolInv_run (ops : List PoolOp) (s : BMState) (hinv : PoolInv s) :
    PoolInv (runPool s ops) := by
  induction ops generalizing s with
  | nil => exact hinv
  | cons op rest ih =>
    cases op with
    | pin b =>
      unfold runPool
      cases hp : s.pin b with
      | ok rs =>
        obtain ⟨r, s2⟩ := rs
        exact ih _ (poolInv_pin s b hinv r s2 hp)
      | error e => exact ih _ hinv
    | unpin b => exact ih _ (poolInv_unpin s b hinv)

/-- C4 (amended): in every buffer-pool state reachable by pin and unpin
calls, the buffer TABLE assigns each BlockId to at most one frame and
distinct resident blocks occupy distinct frames (pairwise distinct keys and
positions).  The original claim about frame metadata fails: an unpinned
frame keeps its stale `block` field, see the counterexample. -/
theorem c4_buf_table_uniqueness (cap : Nat) (pol : EvictionPolicy)
    (ops : List PoolOp) :
    (runPool (BMState.init cap pol) ops).buf_table.Pairwise TableDisj := by
  have hinit : PoolInv (BMState.init cap pol) := by
    refine ⟨List.Pairwise.nil, List.nodup_range _, ?_, ?_, ?_⟩
    · intro m hm; cases hm
    · intro e he
      cases pol with
      | fifo => cases he
      | lruk => cases he
    · cases pol with
      | fifo => exact List.Pairwise.nil
      | lruk => trivial
  exact (poolInv_run ops _ hinit).1

/-! ### C6 — page byte-layout lemmas -/

theorem map_getD_range (w : List Nat) :
    (List.range w.length).map (fun j => w.getD j 0) = w := by
  apply List.ext_getElem
  · simp
  · intro i h1 h2
    simp only [List.getElem_map, List.getElem_range]
    exact List.getD_eq_getElem w 0 h2

theorem writeBytes_apply_inside (p : PageFn) (off : Nat) (w : List Nat)
    (j : Nat) (h : j < w.length) :
    writeBytes p off w (off + j) = w.getD j 0 := by
  unfold writeBytes
  rw [if_pos ⟨Nat.le_add_right _ _, by omega⟩]
  congr 1
  omega

theorem writeBytes_apply_lt (p : PageFn) (off : Nat) (w : List Nat)
    (i : Nat) (h : i < off) : writeBytes p off w i = p i := by
  unfold writeBytes
  rw [if_neg (by omega)]

theorem writeBytes_apply_ge (p : PageFn) (off : Nat) (w : List Nat)
    (i : Nat) (h : off + w.length ≤ i) : writeBytes p off w i = p i := by
  unfold writeBytes
  rw [if_neg (by omega)]

theorem readBytes_writeBytes (p : PageFn) (off : Nat) (w : List Nat) :
    readBytes (writeBytes p off w) off w.length = w := by
  unfold readBytes
  calc (List.range w.length).map (fun j => writeBytes p off w (off + j))
      = (List.range w.length).map (fun j => w.getD j 0) := by
        apply List.map_congr_left
        intro j hj
        exact writeBytes_apply_inside p off w j (List.mem_range.mp hj)
    _ = w := map_getD_range w

theorem readBytes_congr {p q : PageFn} (off n : Nat)
    (h : ∀ j, j < n → p (off + j) = q (off + j)) :
    readBytes p off n = readBytes q off n := by
  unfold readBytes
  apply List.map_congr_left
  intro j hj
  exact h j (List.mem_range.mp hj)

theorem readBytes_getD (p : PageFn) (off n i : Nat) (h : i < n) :
    (readBytes p off n).getD i 0 = p (off + i) := by
  unfold readBytes
  rw [List.getD_eq_getElem _ 0 (by simpa using h)]
  simp

theorem enc4_length (n : Nat) : (enc4 n).length = 4 := rfl

theorem enc4_dec (m : Nat) (h : m < 4294967296) :
    (enc4 m).getD 0 0 + 256 * (enc4 m).getD 1 0 + 65536 * (enc4 m).getD 2 0 +
      16777216 * (enc4 m).getD 3 0 = m := by
  simp only [enc4, List.getD_cons_zero, List.getD_cons_succ]
  omega

theorem asI32_emod_toNat (v : Int) (h1 : -2147483648 ≤ v)
    (h2 : v < 2147483648) : asI32 ((v % 4294967296).toNat) = v := by
  unfold asI32
  have hnn : 0 ≤ v % 4294967296 := Int.emod_nonneg v (by norm_num)
  have hlt : v % 4294967296 < 4294967296 := Int.emod_lt_of_pos v (by norm_num)
  have hmod : ((v % 4294967296).toNat : Int) = v % 4294967296 :=
    Int.toNat_of_nonneg hnn
  have hsm : (v % 4294967296).toNat % 4294967296 = (v % 4294967296).toNat := by
    apply Nat.mod_eq_of_lt
    omega
  by_cases hc : v % 4294967296 < 2147483648
  · rw [hsm, if_pos (by omega), hmod]
    omega
  · rw [hsm, if_neg (by omega), hmod]
    omega

theorem usizeAsI32_small (n : Nat) (h : n < 2147483648) :
    usizeAsI32 n = (n : Int) := by
  unfold usizeAsI32 asI32
  have hm : n % 4294967296 = n := Nat.mod_eq_of_lt (by omega)
  rw [hm, if_pos (by omega)]

theorem i32AsUsize_coe (n : Nat) (h : n < 18446744073709551616) :
    i32AsUsize (n : Int) = n := by
  unfold i32AsUsize
  rw [Int.emod_eq_of_lt (by omega) (by exact_mod_cast h)]
  exact Int.toNat_natCast n

theorem pageGetInt_pageSetInt (p : PageFn) (off : Nat) (v : Int)
    (h1 : -2147483648 ≤ v) (h2 : v < 2147483648) :
    pageGetInt (pageSetInt p off v) off = v := by
  unfold pageGetInt pageSetInt
  have hb : ∀ j, j < 4 →
      writeBytes p off (enc4 ((v % 4294967296).toNat)) (off + j) =
        (enc4 ((v % 4294967296).toNat)).getD j 0 := by
    intro j hj
    exact writeBytes_apply_inside _ _ _ j (by rw [enc4_length]; omega)
  have h0 := hb 0 (by norm_num)
  have h1' := hb 1 (by norm_num)
  have h2' := hb 2 (by norm_num)
  have h3' := hb 3 (by norm_num)
  rw [Nat.add_zero] at h0
  rw [h0, h1', h2', h3']
  have hm : (v % 4294967296).toNat < 4294967296 := by
    have hnn : 0 ≤ v % 4294967296 := Int.emod_nonneg v (by norm_num)
    have hlt : v % 4294967296 < 4294967296 :=
      Int.emod_lt_of_pos v (by norm_num)
    omega
  rw [enc4_dec _ hm]
  exact asI32_emod_toNat v h1 h2

/-- Pointwise agreement above a threshold (writes strictly below are
invisible). -/
def agreeFrom (m : Nat) (p q : PageFn) : Prop := ∀ i, m ≤ i → p i = q i

/-- Pointwise agreement below a threshold (writes at or above are
invisible). -/
def agreeUpTo (m : Nat) (p q : PageFn) : Prop := ∀ i, i < m → p i = q i

theorem agreeFrom_writeBytes (p : PageFn) (off : Nat) (w : List Nat)
    (m : Nat) (h : off + w.length ≤ m) :
    agreeFrom m (writeBytes p off w) p := fun i hi =>
  writeBytes_apply_ge p off w i (by omega)

theorem agreeUpTo_writeBytes (p : PageFn) (off : Nat) (w : List Nat)
    (m : Nat) (h : m ≤ off) : agreeUpTo m (writeBytes p off w) p :=
  fun i hi => writeBytes_apply_lt p off w i (by omega)

theorem pageGetInt_agreeFrom {p q : PageFn} {m off : Nat}
    (ha : agreeFrom m p q) (h : m ≤ off) :
    pageGetInt p off = pageGetInt q off := by
  unfold pageGetInt
  rw [ha off h, ha (off + 1) (by omega), ha (off + 2) (by omega),
    ha (off + 3) (by omega)]

theorem pageGetInt_agreeUpTo {p q : PageFn} {m off : Nat}
    (ha : agreeUpTo m p q) (h : off + 4 ≤ m) :
    pageGetInt p off = pageGetInt q off := by
  unfold pageGetInt
  rw [ha off (by omega), ha (off + 1) (by omega), ha (off + 2) (by omega),
    ha (off + 3) (by omega)]

theorem pageGetBytes_agreeFrom {p q : PageFn} {m off : Nat}
    (ha : agreeFrom m p q) (h : m ≤ off) :
    pageGetBytes p off = pageGetBytes q off := by
  unfold pageGetBytes
  rw [pageGetInt_agreeFrom ha h]
  apply readBytes_congr
  intro j _
  exact ha _ (by omega)

theorem pageGetBytes_agreeUpTo {p q : PageFn} {m off : Nat}
    (ha : agreeUpTo m p q) (h4 : off + 4 ≤ m)
    (hlen : off + 4 + i32AsUsize (pageGetInt q off) ≤ m) :
    pageGetBytes p off = pageGetBytes q off := by
  unfold pageGetBytes
  rw [pageGetInt_agreeUpTo ha h4]
  apply readBytes_congr
  intro j hj
  refine ha _ ?_
  unfold SIZE_OF_INT
  omega

theorem pageGetBytes_pageSetBytes (p : PageFn) (off : Nat) (w : List Nat)
    (h : w.length < 2147483648) :
    pageGetBytes (pageSetBytes p off w) off = w := by
  unfold pageGetBytes pageSetBytes
  have hgi : pageGetInt
      (writeBytes (pageSetInt p off (usizeAsI32 w.length)) (off + SIZE_OF_INT) w)
      off = usizeAsI32 w.length := by
    rw [pageGetInt_agreeUpTo
      (agreeUpTo_writeBytes _ _ _ (off + 4) (by unfold SIZE_OF_INT; omega))
      (by omega)]
    exact pageGetInt_pageSetInt p off _
      (by rw [usizeAsI32_small _ h]; omega)
      (by rw [usizeAsI32_small _ h]; exact_mod_cast h)
  rw [hgi, usizeAsI32_small _ h, i32AsUsize_coe _ (by omega)]
  exact readBytes_writeBytes _ _ w

theorem agreeUpTo_trans {m : Nat} {p q r : PageFn} (h1 : agreeUpTo m p q)
    (h2 : agreeUpTo m q r) : agreeUpTo m p r :=
  fun i hi => (h1 i hi).trans (h2 i hi)

theorem agreeUpTo_mono {m m' : Nat} {p q : PageFn} (h : m' ≤ m)
    (ha : agreeUpTo m p q) : agreeUpTo m' p q :=
  fun i hi => ha i (by omega)

theorem agreeUpTo_pageSetInt (p : PageFn) (off : Nat) (v : Int) (m : Nat)
    (h : m ≤ off) : agreeUpTo m (pageSetInt p off v) p :=
  agreeUpTo_writeBytes p off _ m h

theorem agreeUpTo_pageSetBytes (p : PageFn) (off : Nat) (w : List Nat)
    (m : Nat) (h : m ≤ off) : agreeUpTo m (pageSetBytes p off w) p :=
  agreeUpTo_trans
    (agreeUpTo_writeBytes _ (off + SIZE_OF_INT) w m
      (by unfold SIZE_OF_INT; omega))
    (agreeUpTo_pageSetInt p off _ m h)

theorem pageGetInt_pageSetBytes_len (p : PageFn) (off : Nat) (w : List Nat)
    (h : w.length < 2147483648) :
    pageGetInt (pageSetBytes p off w) off = usizeAsI32 w.length := by
  unfold pageSetBytes
  rw [pageGetInt_agreeUpTo
    (agreeUpTo_writeBytes _ _ _ (off + 4) (by unfold SIZE_OF_INT; omega))
    (by omega)]
  exact pageGetInt_pageSetInt p off _
    (by rw [usizeAsI32_small _ h]; omega)
    (by rw [usizeAsI32_small _ h]; exact_mod_cast h)

/-- The byte list produced by `readBytes p 0 n`, read back as a page,
agrees with `p` on `[0, n)`. -/
theorem agreeUpTo_decodePage (p : PageFn) (n : Nat) :
    agreeUpTo n (fun i => (readBytes p 0 n).getD i 0) p := by
  intro i hi
  have := readBytes_getD p 0 n i hi
  rw [Nat.zero_add] at this
  exact this

theorem decode_encode_simple (tag : Int) (t : Nat) (ht : t < 2147483648)
    (htag : tag = 1 ∨ tag = 2 ∨ tag = 3) :
    let p := pageSetInt (pageSetInt zeroPage 0 tag) SIZE_OF_INT (usizeAsI32 t)
    (pageGetInt (fun i => (readBytes p 0 (2 * SIZE_OF_INT)).getD i 0) 0 = tag ∧
      i32AsUsize (pageGetInt
        (fun i => (readBytes p 0 (2 * SIZE_OF_INT)).getD i 0) SIZE_OF_INT) = t) := by
  intro p
  have hagree := agreeUpTo_decodePage p (2 * SIZE_OF_INT)
  have htagrange : -2147483648 ≤ tag ∧ tag < 2147483648 := by
    rcases htag with h | h | h <;> rw [h] <;> norm_num
  constructor
  · rw [pageGetInt_agreeUpTo hagree (by unfold SIZE_OF_INT; omega)]
    unfold_let p
    rw [pageGetInt_agreeUpTo
      (agreeUpTo_pageSetInt _ SIZE_OF_INT _ 4 (by unfold SIZE_OF_INT; omega))
      (by omega)]
    exact pageGetInt_pageSetInt _ 0 tag htagrange.1 htagrange.2
  · rw [pageGetInt_agreeUpTo hagree (by unfold SIZE_OF_INT; omega)]
    unfold_let p
    rw [pageGetInt_pageSetInt _ SIZE_OF_INT _
      (by rw [usizeAsI32_small _ ht]; omega)
      (by rw [usizeAsI32_small _ ht]; exact_mod_cast ht)]
    rw [usizeAsI32_small _ ht]
    exact i32AsUsize_coe t (by omega)

/-- C6 (amended): decoding re-produces any encoded record whose numeric
fields and string lengths are `i32`-representable (`LogRecOk`); the
original unrestricted claim fails at `txn_num = 2^31`, see the
counterexample. -/
theorem c6_round_trip (r : LogRec) (h : LogRecOk r) :
    LogRec.decode r.encode = some r := by
  cases r with
  | checkpoint =>
    simp only [LogRec.encode, LogRec.decode]
    rw [pageGetInt_agreeUpTo (agreeUpTo_decodePage _ _)
      (by unfold SIZE_OF_INT; omega)]
    rw [pageGetInt_pageSetInt _ 0 0 (by norm_num) (by norm_num)]
    rw [if_pos rfl]
  | start t =>
    have ht : t < 2147483648 := h
    obtain ⟨h1, h2⟩ := decode_encode_simple 1 t ht (Or.inl rfl)
    simp only [LogRec.encode, LogRec.decode]
    rw [h1]
    rw [if_neg (by norm_num), if_pos rfl, h2]
  | commit t =>
    have ht : t < 2147483648 := h
    obtain ⟨h1, h2⟩ := decode_encode_simple 2 t ht (Or.inr (Or.inl rfl))
    simp only [LogRec.encode, LogRec.decode]
    rw [h1]
    rw [if_neg (by norm_num), if_neg (by norm_num), if_pos rfl, h2]
  | rollback t =>
    have ht : t < 2147483648 := h
    obtain ⟨h1, h2⟩ := decode_encode_simple 3 t ht (Or.inr (Or.inr rfl))
    simp only [LogRec.encode, LogRec.decode]
    rw [h1]
    rw [if_neg (by norm_num), if_neg (by norm_num), if_neg (by norm_num),
      if_pos rfl, h2]
  | update t f bn off v =>
    obtain ⟨ht, hf, hbn, hoff, hv⟩ := h
    have hti : i32AsUsize (usizeAsI32 t) = t := by
      rw [usizeAsI32_small _ ht]; exact i32AsUsize_coe t (by omega)
    have hbni : i32AsUsize (usizeAsI32 bn) = bn := by
      rw [usizeAsI32_small _ hbn]; exact i32AsUsize_coe bn (by omega)
    have hoffi : i32AsUsize (usizeAsI32 off) = off := by
      rw [usizeAsI32_small _ hoff]; exact i32AsUsize_coe off (by omega)
    cases v with
    | INT n =>
      obtain ⟨hn1, hn2⟩ := hv
      simp only [LogRec.encode, LogRec.decode, UpdVal.data_type, UpdVal.size,
        SIZE_OF_INT]
      set q0 := pageSetInt zeroPage 0 4 with hq0
      set q1 := pageSetInt q0 4 (usizeAsI32 t) with hq1
      set q2 := pageSetBytes q1 (4 + 4) f with hq2
      set q3 := pageSetInt q2 (4 + 4 + (4 + f.length)) (usizeAsI32 bn) with hq3
      set q4 := pageSetInt q3 (4 + 4 + (4 + f.length) + 4) 0 with hq4
      set q5 := pageSetInt q4 (4 + 4 + (4 + f.length) + 4 + 4)
        (usizeAsI32 off) with hq5
      set q6 := pageSetInt q5 (4 + 4 + (4 + f.length) + 4 + 4 + 4) n with hq6
      set N := 4 + 4 + (4 + f.length) + 4 + 4 + 4 + 4 with hN
      have hdec := agreeUpTo_decodePage q6 N
      have a65 : agreeUpTo (4 + 4 + (4 + f.length) + 4 + 4 + 4) q6 q5 := by
        rw [hq6]; exact agreeUpTo_pageSetInt _ _ _ _ (by omega)
      have a54 : agreeUpTo (4 + 4 + (4 + f.length) + 4 + 4) q5 q4 := by
        rw [hq5]; exact agreeUpTo_pageSetInt _ _ _ _ (by omega)
      have a43 : agreeUpTo (4 + 4 + (4 + f.length) + 4) q4 q3 := by
        rw [hq4]; exact agreeUpTo_pageSetInt _ _ _ _ (by omega)
      have a32 : agreeUpTo (4 + 4 + (4 + f.length)) q3 q2 := by
        rw [hq3]; exact agreeUpTo_pageSetInt _ _ _ _ (by omega)
      have a21 : agreeUpTo (4 + 4) q2 q1 := by
        rw [hq2]; exact agreeUpTo_pageSetBytes _ _ _ _ (by omega)
      have a10 : agreeUpTo 4 q1 q0 := by
        rw [hq1]; exact agreeUpTo_pageSetInt _ _ _ _ (by omega)
      have c62 : agreeUpTo (4 + 4 + (4 + f.length)) q6 q2 :=
        agreeUpTo_trans (agreeUpTo_mono (by omega) a65)
          (agreeUpTo_trans (agreeUpTo_mono (by omega) a54)
            (agreeUpTo_trans (agreeUpTo_mono (by omega) a43) a32))
      have c63 : agreeUpTo (4 + 4 + (4 + f.length) + 4) q6 q3 :=
        agreeUpTo_trans (agreeUpTo_mono (by omega) a65)
          (agreeUpTo_trans (agreeUpTo_mono (by omega) a54) a43)
      have c64 : agreeUpTo (4 + 4 + (4 + f.length) + 4 + 4) q6 q4 :=
        agreeUpTo_trans (agreeUpTo_mono (by omega) a65) a54
      have c61 : agreeUpTo (4 + 4) q6 q1 :=
        agreeUpTo_trans (agreeUpTo_mono (by omega) c62) a21
      have c60 : agreeUpTo 4 q6 q0 :=
        agreeUpTo_trans (agreeUpTo_mono (by omega) c61) a10
      have hfl : pageGetInt q2 (4 + 4) = usizeAsI32 f.length := by
        rw [hq2]; exact pageGetInt_pageSetBytes_len _ _ f hf
      have h6fl : pageGetInt q6 (4 + 4) = usizeAsI32 f.length :=
        (pageGetInt_agreeUpTo c62 (by omega)).trans hfl
      have h6fli : i32AsUsize (pageGetInt q6 (4 + 4)) = f.length := by
        rw [h6fl, usizeAsI32_small _ hf]; exact i32AsUsize_coe _ (by omega)
      have hfli : i32AsUsize (pageGetInt q2 (4 + 4)) = f.length := by
        rw [hfl, usizeAsI32_small _ hf]; exact i32AsUsize_coe _ (by omega)
      have h0 : pageGetInt (fun i => (readBytes q6 0 N).getD i 0) 0 = 4 :=
        (pageGetInt_agreeUpTo hdec (by omega)).trans
          ((pageGetInt_agreeUpTo c60 (by omega)).trans
            (by rw [hq0]
                exact pageGetInt_pageSetInt _ 0 4 (by norm_num) (by norm_num)))
      have h1 : pageGetInt (fun i => (readBytes q6 0 N).getD i 0) 4 =
          usizeAsI32 t :=
        (pageGetInt_agreeUpTo hdec (by omega)).trans
          ((pageGetInt_agreeUpTo c61 (by omega)).trans
            (by rw [hq1]
                exact pageGetInt_pageSetInt _ 4 _
                  (by rw [usizeAsI32_small _ ht]; omega)
                  (by rw [usizeAsI32_small _ ht]; exact_mod_cast ht)))
      have h2 : pageGetBytes (fun i => (readBytes q6 0 N).getD i 0) (4 + 4) =
          f :=
        (pageGetBytes_agreeUpTo hdec (by omega)
            (by rw [h6fli]; omega)).trans
          ((pageGetBytes_agreeUpTo c62 (by omega)
              (by rw [hfli]; omega)).trans
            (by rw [hq2]
                exact pageGetBytes_pageSetBytes _ _ f hf))
      have h3 : pageGetInt (fun i => (readBytes q6 0 N).getD i 0)
          (4 + 4 + (4 + f.length)) = usizeAsI32 bn :=
        (pageGetInt_agreeUpTo hdec (by omega)).trans
          ((pageGetInt_agreeUpTo c63 (by omega)).trans
            (by rw [hq3]
                exact pageGetInt_pageSetInt _ _ _
                  (by rw [usizeAsI32_small _ hbn]; omega)
                  (by rw [usizeAsI32_small _ hbn]; exact_mod_cast hbn)))
      have h4 : pageGetInt (fun i => (readBytes q6 0 N).getD i 0)
          (4 + 4 + (4 + f.length) + 4) = 0 :=
        (pageGetInt_agreeUpTo hdec (by omega)).trans
          ((pageGetInt_agreeUpTo c64 (by omega)).trans
            (by rw [hq4]
                exact pageGetInt_pageSetInt _ _ 0 (by norm_num) (by norm_num)))
      have h5 : pageGetInt (fun i => (readBytes q6 0 N).getD i 0)
          (4 + 4 + (4 + f.length) + 4 + 4) = usizeAsI32 off :=
        (pageGetInt_agreeUpTo hdec (by omega)).trans
          ((pageGetInt_agreeUpTo a65 (by omega)).trans
            (by rw [hq5]
                exact pageGetInt_pageSetInt _ _ _
                  (by rw [usizeAsI32_small _ hoff]; omega)
                  (by rw [usizeAsI32_small _ hoff]; exact_mod_cast hoff)))
      have h6 : pageGetInt (fun i => (readBytes q6 0 N).getD i 0)
          (4 + 4 + (4 + f.length) + 4 + 4 + 4) = n :=
        (pageGetInt_agreeUpTo hdec (by omega)).trans
          (by rw [hq6]
              exact pageGetInt_pageSetInt _ _ n hn1 hn2)
      rw [h0]
      rw [if_neg (by norm_num), if_neg (by norm_num), if_neg (by norm_num),
        if_neg (by norm_num), if_pos rfl]
      rw [h2, h1, h3, h4, h5]
      rw [if_pos rfl]
      rw [h6, hti, hbni, hoffi]
    | STRING s =>
      have hs : s.length < 2147483648 := hv
      simp only [LogRec.encode, LogRec.decode, UpdVal.data_type, UpdVal.size,
        SIZE_OF_INT]
      set q0 := pageSetInt zeroPage 0 4 with hq0
      set q1 := pageSetInt q0 4 (usizeAsI32 t) with hq1
      set q2 := pageSetBytes q1 (4 + 4) f with hq2
      set q3 := pageSetInt q2 (4 + 4 + (4 + f.length)) (usizeAsI32 bn) with hq3
      set q4 := pageSetInt q3 (4 + 4 + (4 + f.length) + 4) 1 with hq4
      set q5 := pageSetInt q4 (4 + 4 + (4 + f.length) + 4 + 4)
        (usizeAsI32 off) with hq5
      set q6 := pageSetBytes q5 (4 + 4 + (4 + f.length) + 4 + 4 + 4) s with hq6
      set N := 4 + 4 + (4 + f.length) + 4 + 4 + 4 + (4 + s.length) with hN
      have hdec := agreeUpTo_decodePage q6 N
      have a65 : agreeUpTo (4 + 4 + (4 + f.length) + 4 + 4 + 4) q6 q5 := by
        rw [hq6]; exact agreeUpTo_pageSetBytes _ _ _ _ (by omega)
      have a54 : agreeUpTo (4 + 4 + (4 + f.length) + 4 + 4) q5 q4 := by
        rw [hq5]; exact agreeUpTo_pageSetInt _ _ _ _ (by omega)
      have a43 : agreeUpTo (4 + 4 + (4 + f.length) + 4) q4 q3 := by
        rw [hq4]; exact agreeUpTo_pageSetInt _ _ _ _ (by omega)
      have a32 : agreeUpTo (4 + 4 + (4 + f.length)) q3 q2 := by
        rw [hq3]; exact agreeUpTo_pageSetInt _ _ _ _ (by omega)
      have a21 : agreeUpTo (4 + 4) q2 q1 := by
        rw [hq2]; exact agreeUpTo_pageSetBytes _ _ _ _ (by omega)
      have a10 : agreeUpTo 4 q1 q0 := by
        rw [hq1]; exact agreeUpTo_pageSetInt _ _ _ _ (by omega)
      have c62 : agreeUpTo (4 + 4 + (4 + f.length)) q6 q2 :=
        agreeUpTo_trans (agreeUpTo_mono (by omega) a65)
          (agreeUpTo_trans (agreeUpTo_mono (by omega) a54)
            (agreeUpTo_trans (agreeUpTo_mono (by omega) a43) a32))
      have c63 : agreeUpTo (4 + 4 + (4 + f.length) + 4) q6 q3 :=
        agreeUpTo_trans (agreeUpTo_mono (by omega) a65)
          (agreeUpTo_trans (agreeUpTo_mono (by omega) a54) a43)
      have c64 : agreeUpTo (4 + 4 + (4 + f.length) + 4 + 4) q6 q4 :=
        agreeUpTo_trans (agreeUpTo_mono (by omega) a65) a54
      have c61 : agreeUpTo (4 + 4) q6 q1 :=
        agreeUpTo_trans (agreeUpTo_mono (by omega) c62) a21
      have c60 : agreeUpTo 4 q6 q0 :=
        agreeUpTo_trans (agreeUpTo_mono (by omega) c61) a10
      have hfl : pageGetInt q2 (4 + 4) = usizeAsI32 f.length := by
        rw [hq2]; exact pageGetInt_pageSetBytes_len _ _ f hf
      have h6fl : pageGetInt q6 (4 + 4) = usizeAsI32 f.length :=
        (pageGetInt_agreeUpTo c62 (by omega)).trans hfl
      have h6fli : i32AsUsize (pageGetInt q6 (4 + 4)) = f.length := by
        rw [h6fl, usizeAsI32_small _ hf]; exact i32AsUsize_coe _ (by omega)
      have hfli : i32AsUsize (pageGetInt q2 (4 + 4)) = f.length := by
        rw [hfl, usizeAsI32_small _ hf]; exact i32AsUsize_coe _ (by omega)
      have hsl : pageGetInt q6 (4 + 4 + (4 + f.length) + 4 + 4 + 4) =
          usizeAsI32 s.length := by
        rw [hq6]; exact pageGetInt_pageSetBytes_len _ _ s hs
      have hsli : i32AsUsize
          (pageGetInt q6 (4 + 4 + (4 + f.length) + 4 + 4 + 4)) = s.length := by
        rw [hsl, usizeAsI32_small _ hs]; exact i32AsUsize_coe _ (by omega)
      have h0 : pageGetInt (fun i => (readBytes q6 0 N).getD i 0) 0 = 4 :=
        (pageGetInt_agreeUpTo hdec (by omega)).trans
          ((pageGetInt_agreeUpTo c60 (by omega)).trans
            (by rw [hq0]
                exact pageGetInt_pageSetInt _ 0 4 (by norm_num) (by norm_num)))
      have h1 : pageGetInt (fun i => (readBytes q6 0 N).getD i 0) 4 =
          usizeAsI32 t :=
        (pageGetInt_agreeUpTo hdec (by omega)).trans
          ((pageGetInt_agreeUpTo c61 (by omega)).trans
            (by rw [hq1]
                exact pageGetInt_pageSetInt _ 4 _
                  (by rw [usizeAsI32_small _ ht]; omega)
                  (by rw [usizeAsI32_small _ ht]; exact_mod_cast ht)))
      have h2 : pageGetBytes (fun i => (readBytes q6 0 N).getD i 0) (4 + 4) =
          f :=
        (pageGetBytes_agreeUpTo hdec (by omega)
            (by rw [h6fli]; omega)).trans
          ((pageGetBytes_agreeUpTo c62 (by omega)
              (by rw [hfli]; omega)).trans
            (by rw [hq2]
                exact pageGetBytes_pageSetBytes _ _ f hf))
      have h3 : pageGetInt (fun i => (readBytes q6 0 N).getD i 0)
          (4 + 4 + (4 + f.length)) = usizeAsI32 bn :=
        (pageGetInt_agreeUpTo hdec (by omega)).trans
          ((pageGetInt_agreeUpTo c63 (by omega)).trans
            (by rw [hq3]
                exact pageGetInt_pageSetInt _ _ _
                  (by rw [usizeAsI32_small _ hbn]; omega)
                  (by rw [usizeAsI32_small _ hbn]; exact_mod_cast hbn)))
      have h4 : pageGetInt (fun i => (readBytes q6 0 N).getD i 0)
          (4 + 4 + (4 + f.length) + 4) = 1 :=
        (pageGetInt_agreeUpTo hdec (by omega)).trans
          ((pageGetInt_agreeUpTo c64 (by omega)).trans
            (by rw [hq4]
                exact pageGetInt_pageSetInt _ _ 1 (by norm_num) (by norm_num)))
      have h5 : pageGetInt (fun i => (readBytes q6 0 N).getD i 0)
          (4 + 4 + (4 + f.length) + 4 + 4) = usizeAsI32 off :=
        (pageGetInt_agreeUpTo hdec (by omega)).trans
          ((pageGetInt_agreeUpTo a65 (by omega)).trans
            (by rw [hq5]
                exact pageGetInt_pageSetInt _ _ _
                  (by rw [usizeAsI32_small _ hoff]; omega)
                  (by rw [usizeAsI32_small _ hoff]; exact_mod_cast hoff)))
      have h6 : pageGetBytes (fun i => (readBytes q6 0 N).getD i 0)
          (4 + 4 + (4 + f.length) + 4 + 4 + 4) = s :=
        (pageGetBytes_agreeUpTo hdec (by omega)
            (by rw [hsli]; omega)).trans
          (by rw [hq6]
              exact pageGetBytes_pageSetBytes _ _ s hs)
      rw [h0]
      rw [if_neg (by norm_num), if_neg (by norm_num), if_neg (by norm_num),
        if_neg (by norm_num), if_pos rfl]
      rw [h2, h1, h3, h4, h5]
      rw [if_neg (by norm_num), if_pos rfl]
      rw [h6, hti, hbni, hoffi]

/-- C6 counterexample: the claim as stated (for EVERY record) fails.
`txn_num` is a `usize` stored with `as i32`: encoding `Start` with
`txn_num = 2^31` writes the i32 `-2^31`, and decoding sign-extends it back
to `2^64 - 2^31 ≠ 2^31`. -/
theorem c6_start_2pow31_not_round_trip :
    LogRec.decode (LogRec.encode (LogRec.start 2147483648)) =
      some (LogRec.start 18446744071562067968) ∧
    (18446744071562067968 : Nat) ≠ 2147483648 := by
  constructor
  · decide
  · norm_num

/-- C6 witness: a concrete update record round trips. -/
theorem c6_round_trip_witness :
    LogRec.decode
        (LogRec.encode (LogRec.update 7 [104, 105] 3 80 (UpdVal.INT (-5)))) =
      some (LogRec.update 7 [104, 105] 3 80 (UpdVal.INT (-5))) :=
  c6_round_trip (LogRec.update 7 [104, 105] 3 80 (UpdVal.INT (-5)))
    (by unfold LogRecOk; norm_num)

/-! ### C5 — log iterator round trip -/

theorem getD_set_self {α : Type} (l : List α) (i : Nat) (a d : α)
    (h : i < l.length) : (l.set i a).getD i d = a := by
  unfold List.getD
  rw [List.get?_eq_getElem?, List.getElem?_set_self (by omega)]
  rfl

theorem getD_set_ne {α : Type} (l : List α) (i j : Nat) (a d : α)
    (h : i ≠ j) : (l.set i a).getD j d = l.getD j d := by
  unfold List.getD
  rw [List.get?_eq_getElem?, List.get?_eq_getElem?, List.getElem?_set_ne h]

theorem getD_append_left {α : Type} (l m : List α) (j : Nat) (d : α)
    (h : j < l.length) : (l ++ m).getD j d = l.getD j d :=
  List.getD_append l m d j h

/-- `BlockRecs` only reads the page at positions at or above `pos`. -/
theorem blockRecs_agreeFrom {bs : Nat} {p q : PageFn} {m pos : Nat}
    {l : List (List Nat)} (ha : agreeFrom m p q) (hm : m ≤ pos)
    (h : BlockRecs bs q pos l) : BlockRecs bs p pos l := by
  induction h with
  | nil => exact BlockRecs.nil
  | cons hlt hget hrest ih =>
    rename_i pos' r' l'
    refine BlockRecs.cons hlt ?_ (ih (by omega))
    rw [pageGetBytes_agreeFrom ha hm]
    exact hget

theorem agreeFrom_pageSetInt (p : PageFn) (off : Nat) (v : Int) (m : Nat)
    (h : off + 4 ≤ m) : agreeFrom m (pageSetInt p off v) p := by
  have := agreeFrom_writeBytes p off (enc4 ((v % 4294967296).toNat)) m
    (by rw [enc4_length]; omega)
  exact this

theorem agreeFrom_pageSetBytes (p : PageFn) (off : Nat) (w : List Nat)
    (m : Nat) (h : off + 4 + w.length ≤ m) :
    agreeFrom m (pageSetBytes p off w) p := by
  unfold pageSetBytes
  intro i hi
  rw [writeBytes_apply_ge _ _ _ i (by unfold SIZE_OF_INT; omega)]
  exact agreeFrom_pageSetInt p off _ m (by omega) i hi

theorem belowRecs_zero (chunks : List (List (List Nat))) :
    belowRecs chunks 0 = [] := rfl

theorem belowRecs_succ (chunks : List (List (List Nat))) (c : Nat)
    (h : c < chunks.length) :
    belowRecs chunks (c + 1) =
      (chunks.getD c []).reverse ++ belowRecs chunks c := by
  unfold belowRecs
  rw [List.take_succ]
  have hg : chunks[c]? = some (chunks.getD c []) := by
    rw [List.getElem?_eq_getElem h]
    congr 1
    unfold List.getD
    rw [List.get?_eq_getElem?, List.getElem?_eq_getElem h]
    rfl
  rw [hg]
  simp [List.join_append]

/-- The full `belowRecs` is the reverse of all records in append order. -/
theorem belowRecs_full (chunks : List (List (List Nat))) :
    belowRecs chunks chunks.length = (chunks.join).reverse := by
  unfold belowRecs
  rw [List.take_length, List.reverse_join]

/-- One `next` call inside a block: emits the record at `pos` and advances
past it. -/
theorem drain_cons_step (bs : Nat) (disk : List PageFn) (c : Nat)
    (page : PageFn) (pos : Nat) (r : List Nat) (res : List (List Nat))
    (itF : LogIt) (n : Nat) (hlt : pos < bs) (hget : pageGetBytes page pos = r)
    (hrest : LogIt.drain ⟨bs, disk, c, page, pos + SIZE_OF_INT + r.length⟩ n =
      (res, itF)) :
    LogIt.drain ⟨bs, disk, c, page, pos⟩ (n + 1) = (r :: res, itF) := by
  have hnext : LogIt.next ⟨bs, disk, c, page, pos⟩ =
      some (r, ⟨bs, disk, c, page, pos + SIZE_OF_INT + r.length⟩) := by
    unfold LogIt.next
    rw [if_pos (Or.inl hlt)]
    simp only
    rw [if_neg (by omega), hget]
  unfold LogIt.drain
  rw [hnext]
  simp only [hrest]

/-- One `next` call at a block boundary with blocks left: moves to the
previous block and emits its first record. -/
theorem drain_move_step (bs : Nat) (disk : List PageFn) (c : Nat)
    (page : PageFn) (bd : Nat) (r : List Nat) (res : List (List Nat))
    (itF : LogIt) (n : Nat) (hbs : bs < 2147483648) (hbd : bd ≤ bs)
    (hgi : pageGetInt (disk.getD c zeroPage) 0 = (bd : Int))
    (hget : pageGetBytes (disk.getD c zeroPage) bd = r)
    (hrest : LogIt.drain
        ⟨bs, disk, c, disk.getD c zeroPage, bd + SIZE_OF_INT + r.length⟩ n =
      (res, itF)) :
    LogIt.drain ⟨bs, disk, c + 1, page, bs⟩ (n + 1) = (r :: res, itF) := by
  have hnext : LogIt.next ⟨bs, disk, c + 1, page, bs⟩ =
      some (r, ⟨bs, disk, c, disk.getD c zeroPage,
        bd + SIZE_OF_INT + r.length⟩) := by
    unfold LogIt.next
    rw [if_pos (Or.inr (by omega : 0 < c + 1))]
    rw [if_pos (rfl : bs = bs)]
    rw [Nat.add_sub_cancel]
    dsimp only
    rw [hgi, i32AsUsize_coe bd (by omega), hget]
  unfold LogIt.drain
  rw [hnext]
  simp only [hrest]

/-- Iterating from position `pos` of block `c` yields the records of the
rest of block `c`, then all lower blocks' records, latest first, and the
iterator is exhausted afterwards. -/
theorem iterChain (bs : Nat) (hbs : bs < 2147483648) (disk : List PageFn)
    (chunks : List (List (List Nat)))
    (hdisk : ∀ k, k < chunks.length →
      GoodBlock bs (disk.getD k zeroPage) (chunks.getD k []))
    (hne : ∀ k, k + 1 < chunks.length → chunks.getD k [] ≠ []) :
    ∀ c, c < chunks.length →
    ∀ (pos : Nat) (l : List (List Nat)),
    BlockRecs bs (disk.getD c zeroPage) pos l →
    ∃ itF : LogIt,
      LogIt.drain ⟨bs, disk, c, disk.getD c zeroPage, pos⟩
        (l.length + (belowRecs chunks c).length) =
        (l ++ belowRecs chunks c, itF) ∧
      itF.next = none := by
  intro c
  induction c with
  | zero =>
    intro _ pos l hbr
    induction hbr with
    | nil =>
      refine ⟨⟨bs, disk, 0, disk.getD 0 zeroPage, bs⟩, ?_, ?_⟩
      · rw [belowRecs_zero]
        rfl
      · unfold LogIt.next
        rw [if_neg (show ¬ (bs < bs ∨ 0 > 0) by omega)]
    | cons hlt hget hrest ih =>
      rename_i pos' r' l'
      rcases ih with ⟨itF, hdr, hnone⟩
      refine ⟨itF, ?_, hnone⟩
      have hfu : (r' :: l').length + (belowRecs chunks 0).length =
          (l'.length + (belowRecs chunks 0).length) + 1 := by
        simp only [List.length_cons]
        omega
      rw [hfu]
      rw [drain_cons_step bs disk 0 _ pos' r' _ itF _ hlt hget hdr]
      rw [List.cons_append]
  | succ c ihc =>
    intro hc pos l hbr
    induction hbr with
    | nil =>
      have hcc : c < chunks.length := by omega
      rcases hdisk c hcc with ⟨bd, hbd, hgi, hbr'⟩
      have hnec : chunks.getD c [] ≠ [] := hne c hc
      cases hrev : (chunks.getD c []).reverse with
      | nil =>
        exfalso
        exact hnec (by
          have := congrArg List.reverse hrev
          simpa using this)
      | cons r' l'' =>
        rw [hrev] at hbr'
        cases hbr' with
        | cons hlt2 hget2 hrest2 =>
          rcases ihc hcc _ l'' hrest2 with ⟨itF, hdr, hnone⟩
          refine ⟨itF, ?_, hnone⟩
          rw [belowRecs_succ chunks c hcc, hrev]
          have hfu : ([] : List (List Nat)).length +
              ((r' :: l'') ++ belowRecs chunks c).length =
              (l''.length + (belowRecs chunks c).length) + 1 := by
            simp only [List.length_nil, List.length_append, List.length_cons]
            omega
          rw [hfu]
          rw [drain_move_step bs disk c _ bd r' _ itF _ hbs hbd hgi hget2 hdr]
          rw [List.nil_append, List.cons_append]
    | cons hlt hget hrest ih =>
      rename_i pos' r' l'
      rcases ih with ⟨itF, hdr, hnone⟩
      refine ⟨itF, ?_, hnone⟩
      have hfu : (r' :: l').length + (belowRecs chunks (c + 1)).length =
          (l'.length + (belowRecs chunks (c + 1)).length) + 1 := by
        simp only [List.length_cons]
        omega
      rw [hfu]
      rw [drain_cons_step bs disk (c + 1) _ pos' r' _ itF _ hlt hget hdr]
      rw [List.cons_append]

/-- `getD` at the position right past a list hits a single appended element. -/
theorem getD_append_last {α : Type} : ∀ (l : List α) (a d : α),
    (l ++ [a]).getD l.length d = a := by
  intro l a d
  induction l with
  | nil => rfl
  | cons x xs ih => exact ih

/-- Splitting the `join` of a list of known length at its last element. -/
theorem join_take_getD {α : Type} : ∀ (l : List (List α)) (i : Nat),
    l.length = i + 1 → l.join = (l.take i).join ++ l.getD i [] := by
  intro l
  induction l with
  | nil => intro i h; exact absurd h (by simp)
  | cons x xs ih =>
    intro i h
    cases i with
    | zero =>
      have hx : xs = [] := List.length_eq_zero.mp (by simpa using h)
      subst hx
      simp
    | succ j =>
      have hx : xs.length = j + 1 := by simpa using h
      show x ++ xs.join = (x ++ (xs.take j).join) ++ xs.getD j []
      rw [ih j hx, List.append_assoc]

/-- `join` after overwriting the last element of a list of known length. -/
theorem join_set_last {α : Type} : ∀ (l : List (List α)) (i : Nat) (a : List α),
    l.length = i + 1 → (l.set i a).join = (l.take i).join ++ a := by
  intro l
  induction l with
  | nil => intro i a h; exact absurd h (by simp)
  | cons x xs ih =>
    intro i a h
    cases i with
    | zero =>
      have hx : xs = [] := List.length_eq_zero.mp (by simpa using h)
      subst hx
      simp
    | succ j =>
      have hx : xs.length = j + 1 := by simpa using h
      show x ++ (xs.set j a).join = (x ++ (xs.take j).join) ++ a
      rw [ih j a hx, List.append_assoc]

/-- `append` never changes the block size. -/
theorem append_block_size (s : LogState) (r : List Nat) :
    ((s.append r).1).block_size = s.block_size := by
  simp only [LogState.append, LogState.flushPage, LogState.append_new_block]
  split <;> rfl

/-- `appendAll` never changes the block size. -/
theorem appendAll_block_size : ∀ (rs : List (List Nat)) (s : LogState),
    (s.appendAll rs).block_size = s.block_size := by
  intro rs
  induction rs with
  | nil => intro s; rfl
  | cons r rest ih =>
    intro s
    show ((s.append r).1.appendAll rest).block_size = s.block_size
    rw [ih, append_block_size]

/-- When the record still fits in the current block (`boundary ≥ len + 8`),
`append` only rewrites the log page: the record lands at
`boundary - (len + 4)` and the boundary moves there. -/
theorem append_no_retire (s : LogState) (r : List Nat) (bd : Nat)
    (hgi : pageGetInt s.logpage 0 = (bd : Int)) (hbd : bd < 2147483648)
    (hfit : r.length + 8 ≤ bd) :
    (s.append r).1 = { s with
      logpage := pageSetInt
        (pageSetBytes s.logpage (bd - (r.length + 4)) r) 0
        (usizeAsI32 (bd - (r.length + 4))),
      latest_lsn := s.latest_lsn + 1 } := by
  have hb4 : usizeAsI32 (r.length + SIZE_OF_INT) = ((r.length + 4 : Nat) : Int) := by
    show usizeAsI32 (r.length + 4) = ((r.length + 4 : Nat) : Int)
    exact usizeAsI32_small _ (by omega)
  have hcond : ¬ (pageGetInt s.logpage 0 -
      usizeAsI32 (r.length + SIZE_OF_INT) < (SIZE_OF_INT : Int)) := by
    rw [hgi, hb4]
    show ¬ ((bd : Int) - ((r.length + 4 : Nat) : Int) < ((4 : Nat) : Int))
    push_cast
    omega
  have hrp : i32AsUsize (pageGetInt s.logpage 0) - (r.length + SIZE_OF_INT) =
      bd - (r.length + 4) := by
    rw [hgi, i32AsUsize_coe bd (by omega)]
    rfl
  simp only [LogState.append]
  rw [if_neg hcond]
  rw [hrp]

/-- When the record does not fit (`boundary < len + 8`), `append` flushes the
page, starts a fresh block, and writes the record at
`block_size - (len + 4)` of the new in-memory page. -/
theorem append_retire (s : LogState) (r : List Nat) (bd : Nat)
    (hgi : pageGetInt s.logpage 0 = (bd : Int))
    (hbs : s.block_size < 2147483648) (hrb : r.length + 8 ≤ s.block_size)
    (hsmall : bd < r.length + 8) :
    (s.append r).1 = { s with
      disk := ((s.disk.set s.current_block s.logpage) ++ [zeroPage]).set
        (s.disk.set s.current_block s.logpage).length
        (pageSetInt s.logpage 0 (usizeAsI32 s.block_size)),
      logpage := pageSetInt
        (pageSetBytes (pageSetInt s.logpage 0 (usizeAsI32 s.block_size))
          (s.block_size - (r.length + 4)) r) 0
        (usizeAsI32 (s.block_size - (r.length + 4))),
      current_block := (s.disk.set s.current_block s.logpage).length,
      latest_lsn := s.latest_lsn + 1,
      last_saved_lsn := s.latest_lsn } := by
  have hb4 : usizeAsI32 (r.length + SIZE_OF_INT) = ((r.length + 4 : Nat) : Int) := by
    show usizeAsI32 (r.length + 4) = ((r.length + 4 : Nat) : Int)
    exact usizeAsI32_small _ (by omega)
  have hcond : pageGetInt s.logpage 0 -
      usizeAsI32 (r.length + SIZE_OF_INT) < (SIZE_OF_INT : Int) := by
    rw [hgi, hb4]
    show (bd : Int) - ((r.length + 4 : Nat) : Int) < ((4 : Nat) : Int)
    push_cast
    omega
  have hp0 : pageGetInt (pageSetInt s.logpage 0 (usizeAsI32 s.block_size)) 0 =
      ((s.block_size : Nat) : Int) := by
    rw [usizeAsI32_small _ hbs]
    exact pageGetInt_pageSetInt _ 0 _ (by omega) (by exact_mod_cast hbs)
  have hrp2 : i32AsUsize
      (pageGetInt (pageSetInt s.logpage 0 (usizeAsI32 s.block_size)) 0) -
      (r.length + SIZE_OF_INT) = s.block_size - (r.length + 4) := by
    rw [hp0, i32AsUsize_coe _ (by omega)]
    rfl
  simp only [LogState.append, LogState.flushPage, LogState.append_new_block]
  rw [if_pos hcond]
  rw [hrp2]

/-- The freshly initialised log manager satisfies the invariant with a
single empty block. -/
theorem logInv_init (bs : Nat) (hbs : bs < 2147483648) :
    LogInv (LogState.init bs) [[]] := by
  refine ⟨rfl, rfl, ⟨bs, le_refl bs, ?_, ?_⟩, ?_⟩
  · show pageGetInt (pageSetInt zeroPage 0 (usizeAsI32 bs)) 0 = (bs : Int)
    rw [usizeAsI32_small bs hbs]
    exact pageGetInt_pageSetInt _ 0 _ (by omega) (by exact_mod_cast hbs)
  · show BlockRecs bs (pageSetInt zeroPage 0 (usizeAsI32 bs)) bs ([] : List (List Nat)).reverse
    exact BlockRecs.nil
  · intro k hk
    have hk0 : k < 0 := hk
    exact absurd hk0 (by omega)

set_option maxHeartbeats 1000000 in
/-- One `append` call preserves the log invariant and adds the record to
the total record list. -/
theorem logInv_append (s : LogState) (chunks : List (List (List Nat)))
    (r : List Nat) (hbs : s.block_size < 2147483648)
    (hr : r.length + 8 ≤ s.block_size) (hinv : LogInv s chunks) :
    ∃ chunks', LogInv (s.append r).1 chunks' ∧
      chunks'.join = chunks.join ++ [r] := by
  obtain ⟨hdl, hcl, ⟨bd, hbd, hgi, hbr⟩, hlow⟩ := hinv
  by_cases hcase : r.length + 8 ≤ bd
  · -- the record fits in the current block
    rw [append_no_retire s r bd hgi (by omega) hcase]
    refine ⟨chunks.set s.current_block
      ((chunks.getD s.current_block []) ++ [r]), ⟨?_, ?_, ?_, ?_⟩, ?_⟩
    · exact hdl
    · rw [List.length_set]; exact hcl
    · show GoodBlock s.block_size
        (pageSetInt (pageSetBytes s.logpage (bd - (r.length + 4)) r) 0
          (usizeAsI32 (bd - (r.length + 4))))
        ((chunks.set s.current_block ((chunks.getD s.current_block []) ++ [r])).getD
          s.current_block [])
      rw [getD_set_self chunks s.current_block _ [] (by omega)]
      refine ⟨bd - (r.length + 4), by omega, ?_, ?_⟩
      · rw [usizeAsI32_small _ (by omega)]
        refine pageGetInt_pageSetInt _ 0 _ (by omega) ?_
        have hlt : bd - (r.length + 4) < 2147483648 := by omega
        exact_mod_cast hlt
      · rw [List.reverse_append, List.reverse_singleton, List.singleton_append]
        refine BlockRecs.cons (by omega) ?_ ?_
        · have ha4 : agreeFrom 4
              (pageSetInt (pageSetBytes s.logpage (bd - (r.length + 4)) r) 0
                (usizeAsI32 (bd - (r.length + 4))))
              (pageSetBytes s.logpage (bd - (r.length + 4)) r) :=
            agreeFrom_pageSetInt _ 0 _ 4 (by omega)
          rw [pageGetBytes_agreeFrom ha4 (by omega)]
          exact pageGetBytes_pageSetBytes s.logpage _ r (by omega)
        · have he : bd - (r.length + 4) + SIZE_OF_INT + r.length = bd := by
            show bd - (r.length + 4) + 4 + r.length = bd
            omega
          rw [he]
          refine blockRecs_agreeFrom ?_ (le_refl bd) hbr
          intro i hi
          have h1 := agreeFrom_pageSetInt
            (pageSetBytes s.logpage (bd - (r.length + 4)) r) 0
            (usizeAsI32 (bd - (r.length + 4))) bd (by omega) i hi
          have h2 := agreeFrom_pageSetBytes s.logpage (bd - (r.length + 4)) r
            bd (by omega) i hi
          exact h1.trans h2
    · intro k hk
      have hk' : k < s.current_block := hk
      show GoodBlock s.block_size (s.disk.getD k zeroPage)
          ((chunks.set s.current_block _).getD k []) ∧
        (chunks.set s.current_block _).getD k [] ≠ []
      rw [getD_set_ne chunks s.current_block k _ [] (by omega)]
      exact hlow k hk'

    · rw [join_set_last chunks s.current_block _ hcl, ← List.append_assoc,
        ← join_take_getD chunks s.current_block hcl]
  · -- the record does not fit: the block is retired and a new one started
    rw [append_retire s r bd hgi hbs hr (by omega)]
    have hlen : (s.disk.set s.current_block s.logpage).length =
        s.current_block + 1 := by
      rw [List.length_set]; exact hdl
    refine ⟨chunks ++ [[r]], ⟨?_, ?_, ?_, ?_⟩, ?_⟩
    · show (((s.disk.set s.current_block s.logpage) ++ [zeroPage]).set
          (s.disk.set s.current_block s.logpage).length
          (pageSetInt s.logpage 0 (usizeAsI32 s.block_size))).length =
        (s.disk.set s.current_block s.logpage).length + 1
      rw [List.length_set, List.length_append]
      rfl
    · show (chunks ++ [[r]]).length =
        (s.disk.set s.current_block s.logpage).length + 1
      rw [List.length_append, hcl, hlen]
      rfl
    · show GoodBlock s.block_size
        (pageSetInt (pageSetBytes
            (pageSetInt s.logpage 0 (usizeAsI32 s.block_size))
            (s.block_size - (r.length + 4)) r) 0
          (usizeAsI32 (s.block_size - (r.length + 4))))
        ((chunks ++ [[r]]).getD
          (s.disk.set s.current_block s.logpage).length [])
      rw [hlen, ← hcl, getD_append_last]
      have hlt : s.block_size - (r.length + 4) < 2147483648 := by omega
      have hv1 : (-2147483648 : Int) ≤
          ((s.block_size - (r.length + 4) : Nat) : Int) :=
        le_trans (by norm_num) (Int.natCast_nonneg _)
      have hv2 : ((s.block_size - (r.length + 4) : Nat) : Int) < 2147483648 := by
        exact_mod_cast hlt
      refine ⟨s.block_size - (r.length + 4), by omega, ?_, ?_⟩
      · rw [usizeAsI32_small _ hlt]
        exact pageGetInt_pageSetInt _ 0 _ hv1 hv2
      · show BlockRecs s.block_size _ _ [r]
        refine BlockRecs.cons (by omega) ?_ ?_
        · have ha4 : agreeFrom 4
              (pageSetInt (pageSetBytes
                  (pageSetInt s.logpage 0 (usizeAsI32 s.block_size))
                  (s.block_size - (r.length + 4)) r) 0
                (usizeAsI32 (s.block_size - (r.length + 4))))
              (pageSetBytes (pageSetInt s.logpage 0 (usizeAsI32 s.block_size))
                (s.block_size - (r.length + 4)) r) :=
            agreeFrom_pageSetInt _ 0 _ 4 (by omega)
          rw [pageGetBytes_agreeFrom ha4 (by omega)]
          exact pageGetBytes_pageSetBytes _ _ r (by omega)
        · have he : s.block_size - (r.length + 4) + SIZE_OF_INT + r.length =
              s.block_size := by
            show s.block_size - (r.length + 4) + 4 + r.length = s.block_size
            omega
          rw [he]
          exact BlockRecs.nil
    · intro k hk
      have hk0 : k < (s.disk.set s.current_block s.logpage).length := hk
      have hk' : k < s.current_block + 1 := by rw [hlen] at hk0; exact hk0
      show GoodBlock s.block_size
          ((((s.disk.set s.current_block s.logpage) ++ [zeroPage]).set
            (s.disk.set s.current_block s.logpage).length
            (pageSetInt s.logpage 0 (usizeAsI32 s.block_size))).getD k zeroPage)
          ((chunks ++ [[r]]).getD k []) ∧
        (chunks ++ [[r]]).getD k [] ≠ []
      rw [getD_set_ne _ _ k _ zeroPage (by rw [hlen]; omega)]
      rw [getD_append_left _ [zeroPage] k zeroPage (by rw [List.length_set]; omega)]
      rw [getD_append_left chunks [[r]] k [] (by omega)]
      by_cases hkc : k = s.current_block
      · subst hkc
        rw [getD_set_self s.disk s.current_block s.logpage zeroPage (by omega)]
        refine ⟨⟨bd, hbd, hgi, hbr⟩, ?_⟩
        intro hemp
        rw [hemp] at hbr
        cases hbr
        omega
      · rw [getD_set_ne s.disk s.current_block k s.logpage zeroPage
          (fun h => hkc h.symm)]
        exact hlow k (by omega)
    · simp

/-- `appendAll` preserves the log invariant, extending the total record
list by the appended records in order. -/
theorem logInv_appendAll : ∀ (rs : List (List Nat)) (s : LogState)
    (chunks : List (List (List Nat))),
    s.block_size < 2147483648 →
    (∀ r ∈ rs, r.length + 8 ≤ s.block_size) →
    LogInv s chunks →
    ∃ chunks', LogInv (s.appendAll rs) chunks' ∧
      chunks'.join = chunks.join ++ rs := by
  intro rs
  induction rs with
  | nil =>
    intro s chunks _ _ hinv
    exact ⟨chunks, hinv, by simp⟩
  | cons r rest ih =>
    intro s chunks hbs hb hinv
    obtain ⟨chunks1, hinv1, hj1⟩ :=
      logInv_append s chunks r hbs (hb r (by simp)) hinv
    obtain ⟨chunks2, hinv2, hj2⟩ := ih (s.append r).1 chunks1
      (by rw [append_block_size]; exact hbs)
      (by intro r' hr'; rw [append_block_size]; exact hb r' (by simp [hr']))
      hinv1
    refine ⟨chunks2, hinv2, ?_⟩
    rw [hj2, hj1, List.append_assoc, List.singleton_append]

/-- From any state satisfying the log invariant, `iterator` + repeated
`next` yields all stored records latest-first and then is exhausted. -/
theorem logIt_init_drain (s : LogState) (chunks : List (List (List Nat)))
    (hbs : s.block_size < 2147483648) (hinv : LogInv s chunks) :
    ∃ itF : LogIt,
      (LogIt.init s).drain (chunks.join).length =
        ((chunks.join).reverse, itF) ∧
      itF.next = none := by
  obtain ⟨hdl, hcl, ⟨bd, hbd, hgi, hbr⟩, hlow⟩ := hinv
  have hpg : (s.disk.set s.current_block s.logpage).getD s.current_block
      zeroPage = s.logpage :=
    getD_set_self s.disk s.current_block s.logpage zeroPage (by omega)
  have hinit : LogIt.init s =
      ⟨s.block_size, s.disk.set s.current_block s.logpage, s.current_block,
       s.logpage, bd⟩ := by
    simp only [LogIt.init, LogState.flushPage]
    rw [hpg, hgi, i32AsUsize_coe bd (by omega)]
  have hdisk : ∀ k, k < chunks.length →
      GoodBlock s.block_size
        ((s.disk.set s.current_block s.logpage).getD k zeroPage)
        (chunks.getD k []) := by
    intro k hk
    rw [hcl] at hk
    by_cases hkc : k = s.current_block
    · subst hkc
      rw [hpg]
      exact ⟨bd, hbd, hgi, hbr⟩
    · rw [getD_set_ne s.disk s.current_block k s.logpage zeroPage
        (fun h => hkc h.symm)]
      exact (hlow k (by omega)).1
  have hne : ∀ k, k + 1 < chunks.length → chunks.getD k [] ≠ [] := by
    intro k hk
    rw [hcl] at hk
    exact (hlow k (by omega)).2
  obtain ⟨itF, hdr, hnone⟩ := iterChain s.block_size hbs
    (s.disk.set s.current_block s.logpage) chunks hdisk hne
    s.current_block (by omega) bd ((chunks.getD s.current_block []).reverse)
    (by rw [hpg]; exact hbr)
  rw [hpg] at hdr
  have h1 : (chunks.getD s.current_block []).reverse ++
      belowRecs chunks s.current_block = (chunks.join).reverse := by
    rw [← belowRecs_succ chunks s.current_block (by omega), ← hcl]
    exact belowRecs_full chunks
  have hcount : (chunks.join).length =
      ((chunks.getD s.current_block []).reverse).length +
      (belowRecs chunks s.current_block).length := by
    rw [← List.length_append, h1, List.length_reverse]
  refine ⟨itF, ?_, hnone⟩
  rw [hinit, hcount, hdr, h1]

/-- C5: for every sequence of `append(record)` calls on a fresh log manager
(each record no larger than `block_size − 8`, block size in `i32` range),
`iterator()` yields exactly the appended records in reverse append order —
latest first — reading records left-to-right from each block's boundary,
moving to the previous block when one is exhausted, and is exhausted itself
(`next` returns `None`) after draining block 0. -/
theorem c5_iterator_yields_records_latest_first (bs : Nat)
    (rs : List (List Nat)) (hbs : bs < 2147483648)
    (hrs : ∀ r ∈ rs, r.length + 8 ≤ bs) :
    ∃ itF : LogIt,
      (LogIt.init ((LogState.init bs).appendAll rs)).drain rs.length =
        (rs.reverse, itF) ∧
      itF.next = none := by
  obtain ⟨chunks, hinv, hjoin⟩ := logInv_appendAll rs (LogState.init bs) [[]]
    hbs hrs (logInv_init bs hbs)
  have hj : chunks.join = rs := by simpa using hjoin
  obtain ⟨itF, hdr, hnone⟩ := logIt_init_drain ((LogState.init bs).appendAll rs)
    chunks (by rw [appendAll_block_size]; exact hbs) hinv
  rw [hj] at hdr
  exact ⟨itF, hdr, hnone⟩

/-- Witness for C5 at `block_size = 16` with records `[1,2,3]` then
`[4,5]` (the second append retires the first block). -/
theorem c5_latest_first_witness :
    ((16 : Nat) < 2147483648 ∧
      ∀ r ∈ [[1,2,3],[4,5]], List.length r + 8 ≤ 16) ∧
    ∃ itF : LogIt,
      (LogIt.init ((LogState.init 16).appendAll
        [[1,2,3],[4,5]])).drain (List.length [[1,2,3],[4,5]]) =
        (List.reverse [[1,2,3],[4,5]], itF) ∧
      itF.next = none :=
  ⟨⟨by norm_num, by decide⟩,
   c5_iterator_yields_records_latest_first 16 [[1,2,3],[4,5]]
     (by norm_num) (by decide)⟩
